import Mathlib

set_option autoImplicit false

/-!
Verification of the GroupXpense record store, settlement engine and sync
orchestrator (`expense.service.ts`, `sync.service.ts`).

Amounts are modelled as exact rationals (the spec fixes decimal semantics for
the settlement arithmetic), JS `Map<string, number>` as an insertion-ordered
association list, and the two mutable services as pure functions over explicit
state records.
-/

namespace GroupXpense

/-- The currency-minor-unit tolerance `0.01` used by the settlement sweep. -/
def eps : ℚ := 1 / 100

/-- `parseFloat(x.toFixed(2))` for a nonnegative amount: round to two decimal
digits, ties away from zero (= upwards for the positive amounts emitted). -/
def round2 (x : ℚ) : ℚ := (⌊x * 100 + 1 / 2⌋ : ℚ) / 100

/-- `Group` from `models/group.model.ts`. -/
structure Group where
  id : String
  name : String
  currency : String
  description : String
  createdAt : Option Nat
  participants : List String
  createdBy : Option String
  deriving Repr, DecidableEq

/-- `Expense` from `models/expense.model.ts`. -/
structure Expense where
  id : String
  title : String
  amount : ℚ
  paidBy : String
  participants : List String
  date : Option Nat
  description : Option String
  settled : Bool
  groupId : String
  category : Option String
  createdBy : Option String
  deriving Repr, DecidableEq

/-- The per-user local record store held by `ExpenseService`: the `groups`
collection, the `expenses` collection and the current-group pointer. -/
structure Store where
  groups : List Group
  expenses : List Expense
  currentGroup : Option Group
  deriving Repr, DecidableEq

/-- `Map.get(k) ?? d` on an insertion-ordered map: the `balances.get(x) || 0`
reads of `calculateBalances`. -/
def mapGetD (m : List (String × ℚ)) (k : String) (d : ℚ) : ℚ :=
  match m.find? (fun p => p.1 == k) with
  | some p => p.2
  | none => d

/-- JS `Map.set`: overwrite in place when the key is present (keeping its
insertion position), append at the end otherwise. -/
def mapSet (m : List (String × ℚ)) (k : String) (v : ℚ) : List (String × ℚ) :=
  if m.any (fun p => p.1 == k) then
    m.map (fun p => if p.1 == k then (k, v) else p)
  else m ++ [(k, v)]

/-- `getExpenses(groupId)`: the stored expenses filtered by group. -/
def getExpenses (s : Store) (groupId : String) : List Expense :=
  s.expenses.filter (fun e => e.groupId == groupId)

/-- `getGroupById`. -/
def getGroupById (s : Store) (id : String) : Option Group :=
  s.groups.find? (fun g => g.id == id)

/-- The body of the `expenses.forEach` loop of `calculateBalances`: an
unsettled expense credits its payer with the full amount and debits every
participant with the per-person share. -/
def applyExpense (balances : List (String × ℚ)) (e : Expense) : List (String × ℚ) :=
  if e.settled then balances
  else
    let amountPerPerson := e.amount / (e.participants.length : ℚ)
    let b1 := mapSet balances e.paidBy (mapGetD balances e.paidBy 0 + e.amount)
    e.participants.foldl (fun b p => mapSet b p (mapGetD b p 0 - amountPerPerson)) b1

/-- `calculateBalances(groupId)`: empty map when the group is unknown,
otherwise every group participant seeded with 0 and all unsettled expenses of
the group folded in, in storage order. -/
def calculateBalances (s : Store) (groupId : String) : List (String × ℚ) :=
  match getGroupById s groupId with
  | none => []
  | some group =>
    let seeded := group.participants.foldl (fun b p => mapSet b p 0) []
    (getExpenses s groupId).foldl applyExpense seeded

/-- `getTotalExpenses(groupId)`: the plain sum of `amount` over all expenses
of the group, settled ones included. -/
def getTotalExpenses (s : Store) (groupId : String) : ℚ :=
  (getExpenses s groupId).foldl (fun total e => total + e.amount) 0

/-- An element of the `balanceArray` of `getSimplifiedBalances`. -/
structure BalEntry where
  name : String
  balance : ℚ
  deriving Repr, DecidableEq

/-- A settlement transfer; `fromName`/`toName` model the `from`/`to` fields of
the source (`from` is reserved in Lean). -/
structure Transaction where
  fromName : String
  toName : String
  amount : ℚ
  deriving Repr, DecidableEq

/-- Balance at index `k` of the balance array.  Every index reached by the
sweep is in bounds, so the default entry is never read there. -/
def balAt (arr : List BalEntry) (k : ℕ) : ℚ := (arr.getD k ⟨"", 0⟩).balance

/-- Name at index `k` of the balance array. -/
def nameAt (arr : List BalEntry) (k : ℕ) : String := (arr.getD k ⟨"", 0⟩).name

/-- The `while (i < j)` two-pointer sweep of `getSimplifiedBalances`.  The
`fuel` argument dominates the number of iterations; `settleFuel` below always
provides enough for the sweep to run to its `break`/`i >= j` exit. -/
def settleLoop : ℕ → List BalEntry → ℕ → ℕ → List Transaction
  | 0, _, _, _ => []
  | fuel + 1, arr, i, j =>
    if i < j then
      if |balAt arr i| < eps ∧ balAt arr j < eps then []
      else
        if eps < min |balAt arr i| (balAt arr j) then
          ⟨nameAt arr i, nameAt arr j, round2 (min |balAt arr i| (balAt arr j))⟩ ::
            settleLoop fuel
              ((arr.set i ⟨nameAt arr i, balAt arr i + min |balAt arr i| (balAt arr j)⟩).set j
                ⟨nameAt arr j, balAt arr j - min |balAt arr i| (balAt arr j)⟩)
              (if |balAt arr i + min |balAt arr i| (balAt arr j)| < eps then i + 1 else i)
              (if balAt arr j - min |balAt arr i| (balAt arr j) < eps then j - 1 else j)
        else []
    else []

/-- The stable ascending sort `balanceArray.sort((a, b) => a.balance - b.balance)`
(JS array sort is stable, as is insertion sort). -/
def sortByBalance (l : List BalEntry) : List BalEntry :=
  List.insertionSort (fun a b => a.balance ≤ b.balance) l

/-- An iteration budget that dominates the sweep: every iteration either emits
a transfer (strictly shrinking `i..j` or moving more than `eps` off the
creditor) or exits. -/
def settleFuel (arr : List BalEntry) : ℕ :=
  arr.length + 1 + (⌈(arr.map (fun e => |e.balance|)).sum / eps⌉).toNat

/-- `getSimplifiedBalances(groupId)`: project the balance map to entries,
stable-sort ascending, sweep. -/
def getSimplifiedBalances (s : Store) (groupId : String) : List Transaction :=
  settleLoop
    (settleFuel (sortByBalance ((calculateBalances s groupId).map (fun p => BalEntry.mk p.1 p.2))))
    (sortByBalance ((calculateBalances s groupId).map (fun p => BalEntry.mk p.1 p.2)))
    0
    ((sortByBalance ((calculateBalances s groupId).map (fun p => BalEntry.mk p.1 p.2))).length - 1)

/-- The sum of the balances in the index window `[i, j]` of the balance
array. -/
def winSum (arr : List BalEntry) (i j : ℕ) : ℚ := ∑ k in Finset.Icc i j, balAt arr k

/-- Counting potential of the sweep: how many doublings of the debtor-side
unit fit into the window sum.  It is 0 on the (zero-sum) initial window and
strictly decreases on the rare emission that advances neither pointer. -/
def potT (arr : List BalEntry) (i j : ℕ) : ℕ :=
  (⌈winSum arr i j / max (balAt arr i) eps⌉).toNat

/-- Total of the amounts of a transfer list. -/
def transferTotal (ts : List Transaction) : ℚ := (ts.map (fun t => t.amount)).sum

/-- Sum of the positive balances of a balance map. -/
def positiveTotal (m : List (String × ℚ)) : ℚ := (m.map (fun p => max p.2 0)).sum

/-- Sum of the positive parts of the balances with index in `(i, j]`: the
mass still available to future creditors of the sweep. -/
def posWin (arr : List BalEntry) (i j : ℕ) : ℚ :=
  ∑ k in Finset.Ioc i j, max (balAt arr k) 0

/-- Sum of the values of a balance map. -/
def mapSum (m : List (String × ℚ)) : ℚ := (m.map (fun p => p.2)).sum

/-- The keys of a balance map are pairwise distinct (invariant of every map
built through `mapSet`). -/
def NodupKeys (m : List (String × ℚ)) : Prop := (m.map (fun p => p.1)).Nodup

/-- `saveGroup`.  `auth` is the identity resolved by `getCurrentUserId`;
`freshId`/`now` stand for the generated UUID and `new Date()` of the create
path.  A group with a nonempty (truthy) id is replaced at the first index
carrying that id; otherwise it is stamped and pushed. -/
def saveGroup (auth : Option String) (freshId : String) (now : Nat) (group : Group)
    (s : Store) : Except String (Store × Group) :=
  match auth with
  | none => .error "User must be logged in to save groups"
  | some userId =>
    if group.id ≠ "" then
      match s.groups.findIdx? (fun g => g.id == group.id) with
      | some idx => .ok ({ s with groups := s.groups.set idx group }, group)
      | none => .ok (s, group)
    else
      let g2 := { group with id := freshId, createdBy := some userId, createdAt := some now }
      .ok ({ s with groups := s.groups ++ [g2] }, g2)

/-- `deleteAllExpensesForGroup` (private helper of `deleteGroup`): silently
returns when no user is logged in, otherwise drops every expense of the
group. -/
def deleteAllExpensesForGroup (auth : Option String) (groupId : String) (s : Store) : Store :=
  match auth with
  | none => s
  | some _ => { s with expenses := s.expenses.filter (fun e => e.groupId != groupId) }

/-- `clearCurrentGroup`: its try/catch swallows the unauthenticated error, so
without an identity the store is returned unchanged. -/
def clearCurrentGroup (auth : Option String) (s : Store) : Store :=
  match auth with
  | none => s
  | some _ => { s with currentGroup := none }

/-- `deleteGroup`: drops the group, cascades to its expenses, and clears the
current-group pointer when it referenced the deleted id. -/
def deleteGroup (auth : Option String) (id : String) (s : Store) : Except String Store :=
  match auth with
  | none => .error "User must be logged in to delete groups"
  | some _ =>
    let s1 := { s with groups := s.groups.filter (fun g => g.id != id) }
    let s2 := deleteAllExpensesForGroup auth id s1
    match s2.currentGroup with
    | some currentGroup =>
      if currentGroup.id == id then .ok (clearCurrentGroup auth s2) else .ok s2
    | none => .ok s2

/-- `saveExpense`. -/
def saveExpense (auth : Option String) (freshId : String) (now : Nat) (expense : Expense)
    (s : Store) : Except String (Store × Expense) :=
  match auth with
  | none => .error "User must be logged in to save expenses"
  | some userId =>
    if expense.id ≠ "" then
      match s.expenses.findIdx? (fun e => e.id == expense.id) with
      | some idx => .ok ({ s with expenses := s.expenses.set idx expense }, expense)
      | none => .ok (s, expense)
    else
      let e2 := { expense with id := freshId, createdBy := some userId, date := some now }
      .ok ({ s with expenses := s.expenses ++ [e2] }, e2)

/-- `deleteExpense`. -/
def deleteExpense (auth : Option String) (id : String) (s : Store) : Except String Store :=
  match auth with
  | none => .error "User must be logged in to delete expenses"
  | some _ => .ok { s with expenses := s.expenses.filter (fun e => e.id != id) }

/-- The try-block of `setCurrentGroup`: `getUserKey` throws when no user is
logged in, before anything is written. -/
def setCurrentGroupTry (auth : Option String) (group : Group) (s : Store) :
    Except String Store :=
  match auth with
  | none => .error "No user logged in"
  | some _ => .ok { s with currentGroup := some group }

/-- `setCurrentGroup`: the catch block only logs, so the failure of the try
block is not surfaced and the call returns normally. -/
def setCurrentGroup (auth : Option String) (group : Group) (s : Store) : Store :=
  match setCurrentGroupTry auth group s with
  | .ok s2 => s2
  | .error _ => s

/-- The per-expense body of the `expenses.forEach` loop of
`updateExpensesForGroupParticipants`: result expense plus the `shouldUpdate`
flag.  `headD ""` models `newParticipants[0]` (JS `undefined` when the new
list is empty; every claim below assumes a nonempty new list). -/
def adjustExpense (newParticipants : List String) (e : Expense) : Expense × Bool :=
  let step1 :=
    if newParticipants.contains e.paidBy then (e, false)
    else ({ e with paidBy := newParticipants.headD "" }, true)
  let e1 := step1.1
  let updatedParticipants := e1.participants.filter (fun p => newParticipants.contains p)
  if updatedParticipants.length = 0 then
    ({ e1 with participants := newParticipants }, true)
  else if updatedParticipants.length ≠ e1.participants.length then
    ({ e1 with participants := updatedParticipants }, true)
  else (e1, step1.2)

/-- `updateExpensesForGroupParticipants`: walks a snapshot of the group's
expenses and re-saves every adjusted one.  A single `freshId` models the UUID
source; it is only consulted on the (unreachable for stored expenses with
ids) create path of `saveExpense`. -/
def updateExpensesForGroupParticipants (auth : Option String) (freshId : String) (now : Nat)
    (groupId : String) (oldParticipants newParticipants : List String) (s : Store) :
    Except String Store :=
  (getExpenses s groupId).foldlM
    (fun st e =>
      let r := adjustExpense newParticipants e
      if r.2 then (saveExpense auth freshId now r.1 st).map Prod.fst else .ok st)
    s

/-- `updateGroup`: save the group, then rewrite its expenses when the
participant sequence changed (`participantsChanged` in the source is length
difference or a position-wise mismatch, i.e. list inequality). -/
def updateGroup (auth : Option String) (freshId : String) (now : Nat) (updatedGroup : Group)
    (s : Store) : Except String Store :=
  match getGroupById s updatedGroup.id with
  | some oldGroup => do
    let r ← saveGroup auth freshId now updatedGroup s
    if oldGroup.participants ≠ updatedGroup.participants then
      updateExpensesForGroupParticipants auth freshId now updatedGroup.id
        oldGroup.participants updatedGroup.participants r.1
    else .ok r.1
  | none => (saveGroup auth freshId now updatedGroup s).map Prod.fst

/-- JS `Map.set` for arbitrary values (the merge map of `mergeData`). -/
def assocSet {α : Type} (m : List (String × α)) (k : String) (v : α) : List (String × α) :=
  if m.any (fun p => p.1 == k) then m.map (fun p => if p.1 == k then (k, v) else p)
  else m ++ [(k, v)]

/-- `mergeData`: seed an id-keyed map with all local records, overwrite with
every remote (firebase) record, return the values. -/
def mergeData {α : Type} (getId : α → String) (localData firebaseData : List α) : List α :=
  (firebaseData.foldl (fun m item => assocSet m (getId item) item)
    (localData.foldl (fun m item => assocSet m (getId item) item) [])).map (fun p => p.2)

/-- The mutable fields of `SyncService` that the sync claims concern. -/
structure SyncState where
  lastSyncTime : Option Nat
  syncInProgress : Bool
  wasOffline : Bool
  deriving Repr, DecidableEq

/-- Result of the awaited reconciliation body (`loadDataFromFirebase` +
`syncLocalDataToFirebase`): it either resolves or throws. -/
inductive SyncOutcome where
  | success
  | failure
  deriving Repr, DecidableEq

/-- `shouldSync`: false when not authenticated or offline, true otherwise
(the pending-changes branch and the final branch both return true). -/
def shouldSync (isAuthenticated isOnline : Bool) : Bool :=
  if ¬ isAuthenticated then false
  else if ¬ isOnline then false
  else true

/-- `triggerSync`: returns the final service state together with whether a
reconciliation body actually ran.  An in-flight sync makes the trigger
return immediately; otherwise `lastSyncTime` is stamped, the body runs with
the given outcome (exceptions are caught and logged), and the `finally`
clause resets `syncInProgress`. -/
def triggerSync (isAuthenticated isOnline : Bool) (now : Nat) (outcome : SyncOutcome)
    (st : SyncState) : SyncState × Bool :=
  if st.syncInProgress then (st, false)
  else if ¬ shouldSync isAuthenticated isOnline then (st, false)
  else
    ({ st with lastSyncTime := some now, syncInProgress := false },
      isOnline && isAuthenticated)

/-- `forceSync`: clear `lastSyncTime`, then trigger. -/
def forceSync (isAuthenticated isOnline : Bool) (now : Nat) (outcome : SyncOutcome)
    (st : SyncState) : SyncState × Bool :=
  triggerSync isAuthenticated isOnline now outcome { st with lastSyncTime := none }

/-- Lookup of a record by id in a collection (observer used to state the
merge properties; first match, as `Array.find` would). -/
def findById {α : Type} (getId : α → String) : List α → String → Option α
  | [], _ => none
  | x :: t, id => if getId x == id then some x else findById getId t id

/-- Lookup in the id-keyed merge map (observer for `Map.get`). -/
def assocLookup {α : Type} : List (String × α) → String → Option α
  | [], _ => none
  | p :: t, k => if p.1 == k then some p.2 else assocLookup t k

/-- The store of the spec scenario: participants A, B, C and one unsettled
expense of 90 paid by A, split across all three. -/
def scenarioGroup : Group := ⟨"g1", "Trip", "USD", "", none, ["A", "B", "C"], none⟩

def scenarioExpense : Expense :=
  ⟨"e1", "Dinner", 90, "A", ["A", "B", "C"], none, none, false, "g1", none, none⟩

def scenarioStore : Store := ⟨[scenarioGroup], [scenarioExpense], none⟩

/-- A settled expense of the scenario group (for the settled-exclusion
witness). -/
def settledExpense : Expense :=
  ⟨"e2", "Hotel", 120, "B", ["A", "B", "C"], none, none, true, "g1", none, none⟩

/-- A store holding an expense whose `groupId` matches no stored group. -/
def orphanStore : Store := ⟨[], [scenarioExpense], none⟩

/-- A sync-service state with a reconciliation in flight. -/
def busySyncState : SyncState := ⟨some 5, true, false⟩

/-- A one-participant group whose stored expense was paid by an outsider `B`
(`saveExpense` never validates `paidBy` against the group, so such expenses
are storable). -/
def outsiderGroup : Group := ⟨"g2", "Solo", "USD", "", none, ["A"], none⟩

def outsiderExpense : Expense :=
  ⟨"e3", "Taxi", 100, "B", ["A"], none, none, false, "g2", none, none⟩

def outsiderStore : Store := ⟨[outsiderGroup], [outsiderExpense], none⟩

/-- A four-participant group with balances A:-30.018 and B, C, D at +10.006
each (10.006 = 5003/500).  Every comparison in the sweep is decided by a
margin of at least 0.001 — a thousandfold the double-precision error at this
scale — so exact rationals and IEEE doubles trace the identical path. -/
def roundGroup : Group := ⟨"g4", "Ski", "USD", "", none, ["A", "B", "C", "D"], none⟩

def roundExpense1 : Expense :=
  ⟨"e4", "Fuel", 5003 / 500, "B", ["A"], none, none, false, "g4", none, none⟩

def roundExpense2 : Expense :=
  ⟨"e5", "Food", 5003 / 500, "C", ["A"], none, none, false, "g4", none, none⟩

def roundExpense3 : Expense :=
  ⟨"e6", "Toll", 5003 / 500, "D", ["A"], none, none, false, "g4", none, none⟩

def roundStore : Store :=
  ⟨[roundGroup], [roundExpense1, roundExpense2, roundExpense3], none⟩

/-- Concrete records for the merge example: local `{id1:A, id2:B}`, remote
`{id2:C, id3:D}`. -/
def mergeGroupA : Group := ⟨"id1", "A", "USD", "", none, [], none⟩

def mergeGroupB : Group := ⟨"id2", "B", "USD", "", none, [], none⟩

def mergeGroupC : Group := ⟨"id2", "C", "EUR", "", none, [], none⟩

def mergeGroupD : Group := ⟨"id3", "D", "EUR", "", none, [], none⟩

/-- C10 witness input: the updated group keeps only participants A and B. -/
def w10New : Group := { scenarioGroup with participants := ["A", "B"] }

/-- C10 witness input: paid by C (who is being removed). -/
def w10Exp1 : Expense :=
  ⟨"e1", "Taxi", 30, "C", ["A", "B", "C"], some 1, none, false, "g1", none, some "u1"⟩

/-- C10 witness input: participants all removed (only C). -/
def w10Exp2 : Expense :=
  ⟨"e2", "Hotel", 50, "A", ["C"], some 2, none, false, "g1", none, some "u1"⟩

/-- C10 witness input: an expense of another group, untouched. -/
def w10Exp3 : Expense :=
  ⟨"e3", "Lunch", 20, "D", ["D", "E"], some 3, none, false, "g2", none, some "u1"⟩

def w10Store : Store := ⟨[scenarioGroup], [w10Exp1, w10Exp2, w10Exp3], none⟩

instance : IsTotal BalEntry (fun a b => a.balance ≤ b.balance) :=
  ⟨fun a b => le_total a.balance b.balance⟩

instance : IsTrans BalEntry (fun a b => a.balance ≤ b.balance) :=
  ⟨fun _ _ _ hab hbc => le_trans hab hbc⟩

/-- One unfolding of the sweep, used to evaluate it on concrete stores and to
drive the inductions below. -/
theorem settleLoop_step (fuel : ℕ) (arr : List BalEntry) (i j : ℕ) :
    settleLoop (fuel + 1) arr i j =
      (if i < j then
        if |balAt arr i| < eps ∧ balAt arr j < eps then []
        else
          if eps < min |balAt arr i| (balAt arr j) then
            ⟨nameAt arr i, nameAt arr j, round2 (min |balAt arr i| (balAt arr j))⟩ ::
              settleLoop fuel
                ((arr.set i ⟨nameAt arr i, balAt arr i + min |balAt arr i| (balAt arr j)⟩).set j
                  ⟨nameAt arr j, balAt arr j - min |balAt arr i| (balAt arr j)⟩)
                (if |balAt arr i + min |balAt arr i| (balAt arr j)| < eps then i + 1 else i)
                (if balAt arr j - min |balAt arr i| (balAt arr j) < eps then j - 1 else j)
          else []
      else []) := rfl

/-- C1: in the scenario group the balances are A:+60, B:-30, C:-30 and the
settlement is exactly the transfers B→A 30 and C→A 30 (in this order, the one
the stable sort produces). -/
theorem scenario_balances_and_settlement :
    calculateBalances scenarioStore "g1" = [("A", 60), ("B", -30), ("C", -30)] ∧
    getSimplifiedBalances scenarioStore "g1" =
      [⟨"B", "A", 30⟩, ⟨"C", "A", 30⟩] := by
  constructor
  · simp [calculateBalances, getGroupById, getExpenses, applyExpense, mapSet, mapGetD,
      scenarioStore, scenarioGroup, scenarioExpense]
    norm_num
  · simp [getSimplifiedBalances, calculateBalances, getGroupById, getExpenses, applyExpense,
      mapSet, mapGetD, scenarioStore, scenarioGroup, scenarioExpense, sortByBalance,
      List.insertionSort, List.orderedInsert, settleFuel, balAt, nameAt, eps]
    norm_num
    rw [show (4 + Int.toNat 12000 : ℕ) = 12003 + 1 from by decide, settleLoop_step]
    norm_num [balAt, nameAt, eps, round2]
    rw [show (12003 : ℕ) = 12002 + 1 from by norm_num, settleLoop_step]
    norm_num [balAt, nameAt, eps, round2]
    rw [show (12002 : ℕ) = 12001 + 1 from by norm_num, settleLoop_step]
    norm_num [balAt, nameAt, eps, round2]

/-- C5: with an identity present, deleting a group succeeds, removes exactly
the groups carrying that id, removes exactly the expenses of that group, and
clears the current-group pointer precisely when it referenced the deleted
id. -/
theorem deleteGroup_spec (u id : String) (s : Store) :
    ∃ s2, deleteGroup (some u) id s = Except.ok s2 ∧
      s2.groups = s.groups.filter (fun g => g.id != id) ∧
      s2.expenses = s.expenses.filter (fun e => e.groupId != id) ∧
      (∀ g, g ∈ s2.groups ↔ g ∈ s.groups ∧ g.id ≠ id) ∧
      (∀ e, e ∈ s2.expenses ↔ e ∈ s.expenses ∧ e.groupId ≠ id) ∧
      (∀ cg, s.currentGroup = some cg →
        (cg.id = id → s2.currentGroup = none) ∧
        (cg.id ≠ id → s2.currentGroup = some cg)) ∧
      (s.currentGroup = none → s2.currentGroup = none) := by
  rcases hc : s.currentGroup with _ | cg
  · refine ⟨⟨s.groups.filter (fun g => g.id != id),
      s.expenses.filter (fun e => e.groupId != id), none⟩,
      ?_, rfl, rfl, ?_, ?_, ?_, ?_⟩
    · simp [deleteGroup, deleteAllExpensesForGroup, clearCurrentGroup, hc]
    · intro g; simp [List.mem_filter]
    · intro e; simp [List.mem_filter]
    · intro cg hcg; exact nomatch hcg
    · intro _; rfl
  · by_cases hid : cg.id = id
    · refine ⟨⟨s.groups.filter (fun g => g.id != id),
        s.expenses.filter (fun e => e.groupId != id), none⟩,
        ?_, rfl, rfl, ?_, ?_, ?_, ?_⟩
      · simp [deleteGroup, deleteAllExpensesForGroup, clearCurrentGroup, hc, hid]
      · intro g; simp [List.mem_filter]
      · intro e; simp [List.mem_filter]
      · intro cg2 hcg2
        cases hcg2
        exact ⟨fun _ => rfl, fun h => absurd hid h⟩
      · intro h; exact nomatch h
    · refine ⟨⟨s.groups.filter (fun g => g.id != id),
        s.expenses.filter (fun e => e.groupId != id), some cg⟩,
        ?_, rfl, rfl, ?_, ?_, ?_, ?_⟩
      · simp [deleteGroup, deleteAllExpensesForGroup, clearCurrentGroup, hc, hid]
      · intro g; simp [List.mem_filter]
      · intro e; simp [List.mem_filter]
      · intro cg2 hcg2
        cases hcg2
        exact ⟨fun h => absurd h hid, fun _ => rfl⟩
      · intro h; exact nomatch h

/-- C5 witness: deleting the scenario group empties the scenario store. -/
theorem deleteGroup_spec_witness :
    deleteGroup (some "u0") "g1" scenarioStore = Except.ok ⟨[], [], none⟩ ∧
    ((⟨[], [], none⟩ : Store).expenses = []) := by
  obtain ⟨s2, h1, _, hexp, _⟩ := deleteGroup_spec "u0" "g1" scenarioStore
  have hs2 : s2 = ⟨[], [], none⟩ := by
    have heval : deleteGroup (some "u0") "g1" scenarioStore = Except.ok ⟨[], [], none⟩ := rfl
    rw [heval] at h1
    exact (Except.ok.injEq _ _).mp h1.symm
  exact ⟨hs2 ▸ h1, rfl⟩

/-- C6: a trigger (`triggerSync` or `forceSync`) arriving while a
reconciliation is in flight starts no second reconciliation, and whenever a
reconciliation does run, the service is back to idle (`syncInProgress =
false`) after it settles, on success and on failure alike. -/
theorem sync_mutual_exclusion :
    (∀ (a o : Bool) (now : Nat) (outc : SyncOutcome) (st : SyncState),
      st.syncInProgress = true →
        triggerSync a o now outc st = (st, false) ∧
        forceSync a o now outc st = ({ st with lastSyncTime := none }, false)) ∧
    (∀ (a o : Bool) (now : Nat) (outc : SyncOutcome) (st : SyncState),
      (triggerSync a o now outc st).2 = true →
        (triggerSync a o now outc st).1.syncInProgress = false) := by
  constructor
  · intro a o now outc st h
    constructor
    · simp [triggerSync, h]
    · simp [forceSync, triggerSync, h]
  · intro a o now outc st h
    by_cases hp : st.syncInProgress
    · simp [triggerSync, hp] at h
    · by_cases hs : shouldSync a o
      · simp [triggerSync, hp, hs]
      · simp [triggerSync, hp, hs] at h

/-- C6 witness: a concrete busy state rejects a trigger, and a concrete idle
run returns to idle. -/
theorem sync_mutual_exclusion_witness :
    triggerSync true true 7 SyncOutcome.failure busySyncState = (busySyncState, false) ∧
    (triggerSync true true 7 SyncOutcome.failure ⟨none, false, false⟩).1.syncInProgress = false := by
  refine ⟨(sync_mutual_exclusion.1 true true 7 SyncOutcome.failure busySyncState rfl).1, ?_⟩
  exact sync_mutual_exclusion.2 true true 7 SyncOutcome.failure ⟨none, false, false⟩ (by decide)

/-- A settled expense leaves the balance map untouched. -/
theorem applyExpense_settled (b : List (String × ℚ)) (e : Expense) (h : e.settled = true) :
    applyExpense b e = b := by
  simp [applyExpense, h]

/-- Shifting the accumulator out of the `reduce` of `getTotalExpenses`. -/
theorem foldl_amount_shift (l : List Expense) (init : ℚ) :
    l.foldl (fun total e => total + e.amount) init =
      init + l.foldl (fun total e => total + e.amount) 0 := by
  induction l generalizing init with
  | nil => simp
  | cons e t ih =>
    simp only [List.foldl_cons]
    rw [ih (init + e.amount), ih (0 + e.amount)]
    ring

/-- C7: a settled expense of the group changes nothing in
`calculateBalances`, while `getTotalExpenses` grows by exactly its amount. -/
theorem settled_excluded_from_balances (s : Store) (gid : String) (e : Expense)
    (hset : e.settled = true) (hgid : e.groupId = gid) :
    calculateBalances { s with expenses := e :: s.expenses } gid = calculateBalances s gid ∧
    getTotalExpenses { s with expenses := e :: s.expenses } gid =
      e.amount + getTotalExpenses s gid := by
  have hexp : getExpenses { s with expenses := e :: s.expenses } gid =
      e :: getExpenses s gid := by
    simp [getExpenses, List.filter_cons, hgid]
  constructor
  · unfold calculateBalances
    have hgrp : getGroupById { s with expenses := e :: s.expenses } gid = getGroupById s gid := rfl
    rw [hgrp, hexp]
    rcases getGroupById s gid with _ | g
    · rfl
    · simp only [List.foldl_cons]
      rw [applyExpense_settled _ _ hset]
  · unfold getTotalExpenses
    rw [hexp]
    simp only [List.foldl_cons]
    rw [foldl_amount_shift _ (0 + e.amount)]
    ring

/-- C7 witness at the scenario store with a concrete settled expense. -/
theorem settled_excluded_from_balances_witness :
    calculateBalances { scenarioStore with expenses := settledExpense :: scenarioStore.expenses }
        "g1" = calculateBalances scenarioStore "g1" ∧
    getTotalExpenses { scenarioStore with expenses := settledExpense :: scenarioStore.expenses }
        "g1" = settledExpense.amount + getTotalExpenses scenarioStore "g1" :=
  settled_excluded_from_balances scenarioStore "g1" settledExpense rfl rfl

/-- C8 (amended): the put/delete mutations fail with the not-authenticated
error and leave the store unchanged when no identity resolves, while
`setCurrentGroup` also refuses to mutate but catches its own failure and
returns normally instead of surfacing it. -/
theorem unauthenticated_mutations (g : Group) (e : Expense) (fid : String) (now : Nat)
    (id : String) (s : Store) :
    saveGroup none fid now g s = Except.error "User must be logged in to save groups" ∧
    deleteGroup none id s = Except.error "User must be logged in to delete groups" ∧
    saveExpense none fid now e s = Except.error "User must be logged in to save expenses" ∧
    deleteExpense none id s = Except.error "User must be logged in to delete expenses" ∧
    setCurrentGroupTry none g s = Except.error "No user logged in" ∧
    setCurrentGroup none g s = s :=
  ⟨rfl, rfl, rfl, rfl, rfl, rfl⟩

/-- C8 counterexample: at a concrete unauthenticated call, `setCurrentGroup`
(the `setActive` mutation) fails internally but the caller gets a normal
return with the store unchanged — the failure is silently swallowed, not
surfaced. -/
theorem setCurrentGroup_swallows_failure :
    setCurrentGroupTry none scenarioGroup scenarioStore = Except.error "No user logged in" ∧
    setCurrentGroup none scenarioGroup scenarioStore = scenarioStore :=
  ⟨rfl, rfl⟩

/-- Setting a fresh key appends. -/
theorem assocSet_fresh {α : Type} (m : List (String × α)) (k : String) (v : α)
    (h : m.any (fun p => p.1 == k) = false) :
    assocSet m k v = m ++ [(k, v)] := by
  simp [assocSet, h]

/-- Folding `assocSet` over records with pairwise-new ids appends their
(id, record) pairs in order. -/
theorem foldl_assocSet_append {α : Type} (getId : α → String) :
    ∀ (l : List α) (m : List (String × α)),
      (∀ a ∈ l, m.any (fun p => p.1 == getId a) = false) →
      (l.map getId).Nodup →
      l.foldl (fun acc x => assocSet acc (getId x) x) m = m ++ l.map (fun a => (getId a, a)) := by
  intro l
  induction l with
  | nil => intro m _ _; simp
  | cons a t ih =>
    intro m hfresh hnodup
    have hnd : (∀ x ∈ t, ¬ getId x = getId a) ∧ (t.map getId).Nodup := by
      simpa using hnodup
    simp only [List.foldl_cons]
    rw [assocSet_fresh m (getId a) a (hfresh a (by simp))]
    rw [ih (m ++ [(getId a, a)]) ?fresh hnd.2]
    · simp
    case fresh =>
      intro b hb
      rw [List.any_append]
      have h1 : m.any (fun p => p.1 == getId b) = false := hfresh b (by simp [hb])
      have h2 : (getId a == getId b) = false := by
        simpa using fun hEq => hnd.1 b hb hEq.symm
      simp [h1, h2]

/-- Lookup of the key just written, map-update branch. -/
theorem assocLookup_map_set {α : Type} (k : String) (v : α) :
    ∀ m : List (String × α), m.any (fun p => p.1 == k) = true →
      assocLookup (m.map (fun p => if p.1 == k then (k, v) else p)) k = some v := by
  intro m
  induction m with
  | nil => intro h; simp at h
  | cons p t ih =>
    intro h
    rw [List.map_cons]
    by_cases hp : (p.1 == k) = true
    · rw [if_pos hp]
      simp [assocLookup]
    · rw [if_neg hp]
      have ht : t.any (fun p => p.1 == k) = true := by
        simpa [List.any_cons, hp] using h
      rw [assocLookup, if_neg hp]
      exact ih ht

/-- Lookup of the key just written, append branch. -/
theorem assocLookup_append_fresh {α : Type} (k : String) (v : α) :
    ∀ m : List (String × α), m.any (fun p => p.1 == k) = false →
      assocLookup (m ++ [(k, v)]) k = some v := by
  intro m
  induction m with
  | nil =>
    intro _
    simp [assocLookup]
  | cons p t ih =>
    intro h
    have hsplit : (p.1 == k) = false ∧ t.any (fun p => p.1 == k) = false := by
      simpa [List.any_cons] using h
    rw [List.cons_append, assocLookup, if_neg (by simp [hsplit.1])]
    exact ih hsplit.2

/-- `Map.set` then `Map.get` of the same key yields the stored value. -/
theorem assocLookup_assocSet_self {α : Type} (m : List (String × α)) (k : String) (v : α) :
    assocLookup (assocSet m k v) k = some v := by
  unfold assocSet
  by_cases h : m.any (fun p => p.1 == k)
  · rw [if_pos h]
    exact assocLookup_map_set k v m h
  · rw [if_neg h]
    exact assocLookup_append_fresh k v m (by simpa only [Bool.not_eq_true] using h)

/-- `Map.set` leaves every other key unchanged (map-update branch). -/
theorem assocLookup_map_set_other {α : Type} (k k2 : String) (v : α) (hne : k2 ≠ k) :
    ∀ m : List (String × α),
      assocLookup (m.map (fun p => if p.1 == k then (k, v) else p)) k2 = assocLookup m k2 := by
  intro m
  induction m with
  | nil => rfl
  | cons p t ih =>
    rw [List.map_cons]
    by_cases hp : (p.1 == k) = true
    · rw [if_pos hp]
      have hp1 : p.1 = k := by simpa using hp
      have hk2 : (k == k2) = false := by simpa using fun hEq => hne hEq.symm
      rw [assocLookup, if_neg (by simp [hk2]), assocLookup, if_neg (by simp [hp1, hk2])]
      exact ih
    · rw [if_neg hp]
      rw [assocLookup, assocLookup]
      by_cases hp2 : (p.1 == k2) = true
      · rw [if_pos hp2, if_pos hp2]
      · rw [if_neg hp2, if_neg hp2]
        exact ih

/-- `Map.set` leaves every other key unchanged (append branch). -/
theorem assocLookup_append_other {α : Type} (k k2 : String) (v : α) (hne : k2 ≠ k) :
    ∀ m : List (String × α), assocLookup (m ++ [(k, v)]) k2 = assocLookup m k2 := by
  intro m
  induction m with
  | nil =>
    have hk : ¬ ((k == k2) = true) := by
      simp only [beq_iff_eq]
      exact fun hEq => hne hEq.symm
    simp [assocLookup, hk]
  | cons p t ih =>
    rw [List.cons_append, assocLookup, assocLookup]
    by_cases hp2 : (p.1 == k2) = true
    · rw [if_pos hp2, if_pos hp2]
    · rw [if_neg hp2, if_neg hp2]
      exact ih

/-- `Map.set` leaves every other key unchanged. -/
theorem assocLookup_assocSet_other {α : Type} (k k2 : String) (v : α) (hne : k2 ≠ k)
    (m : List (String × α)) : assocLookup (assocSet m k v) k2 = assocLookup m k2 := by
  unfold assocSet
  by_cases h : m.any (fun p => p.1 == k)
  · rw [if_pos h]
    exact assocLookup_map_set_other k k2 v hne m
  · rw [if_neg h]
    exact assocLookup_append_other k k2 v hne m

/-- Folding `assocSet` over records whose ids all differ from `k` does not
change the binding of `k`. -/
theorem foldl_assocSet_preserves {α : Type} (getId : α → String) (k : String) :
    ∀ (l : List α) (m : List (String × α)), (∀ x ∈ l, getId x ≠ k) →
      assocLookup (l.foldl (fun acc x => assocSet acc (getId x) x) m) k = assocLookup m k := by
  intro l
  induction l with
  | nil => intro m _; rfl
  | cons a t ih =>
    intro m hne
    simp only [List.foldl_cons]
    rw [ih _ (fun x hx => hne x (by simp [hx]))]
    exact assocLookup_assocSet_other (getId a) k a
      (fun hEq => hne a (by simp) hEq.symm) m

/-- After folding the remote records into the map, each remote id is bound to
its (unique) remote record. -/
theorem foldl_assocSet_lookup_mem {α : Type} (getId : α → String) :
    ∀ (rs : List α) (m : List (String × α)) (r : α), (rs.map getId).Nodup → r ∈ rs →
      assocLookup (rs.foldl (fun acc x => assocSet acc (getId x) x) m) (getId r) = some r := by
  intro rs
  induction rs with
  | nil => intro m r _ hr; exact absurd hr (by simp)
  | cons a t ih =>
    intro m r hnodup hr
    have hnd : (∀ x ∈ t, ¬ getId x = getId a) ∧ (t.map getId).Nodup := by
      simpa using hnodup
    simp only [List.foldl_cons]
    rcases List.mem_cons.mp hr with hEq | hmem
    · subst hEq
      rw [foldl_assocSet_preserves getId (getId r) t _ (fun x hx => hnd.1 x hx)]
      exact assocLookup_assocSet_self m (getId r) r
    · exact ih _ r hnd.2 hmem

/-- Every pair of the merge map binds the id of its own record. -/
def KeyCoherent {α : Type} (getId : α → String) (m : List (String × α)) : Prop :=
  ∀ p ∈ m, p.1 = getId p.2

theorem keyCoherent_assocSet {α : Type} (getId : α → String) (m : List (String × α)) (x : α)
    (h : KeyCoherent getId m) : KeyCoherent getId (assocSet m (getId x) x) := by
  unfold assocSet
  by_cases hm : m.any (fun p => p.1 == getId x)
  · rw [if_pos hm]
    intro p hp
    rcases List.mem_map.mp hp with ⟨q, hq, hqp⟩
    by_cases hq1 : q.1 == getId x
    · rw [if_pos hq1] at hqp; exact hqp ▸ rfl
    · rw [if_neg (by simp_all)] at hqp; exact hqp ▸ h q hq
  · rw [if_neg hm]
    intro p hp
    rcases List.mem_append.mp hp with hq | hq
    · exact h p hq
    · simp at hq; exact hq ▸ rfl

theorem keyCoherent_foldl {α : Type} (getId : α → String) :
    ∀ (l : List α) (m : List (String × α)), KeyCoherent getId m →
      KeyCoherent getId (l.foldl (fun acc x => assocSet acc (getId x) x) m) := by
  intro l
  induction l with
  | nil => intro m h; exact h
  | cons a t ih =>
    intro m h
    exact ih _ (keyCoherent_assocSet getId m a h)

/-- On a key-coherent map, looking a record up by id among the values agrees
with the map lookup. -/
theorem findById_values {α : Type} (getId : α → String) :
    ∀ m : List (String × α), KeyCoherent getId m →
      ∀ id, findById getId (m.map (fun p => p.2)) id = assocLookup m id := by
  intro m
  induction m with
  | nil => intro _ _; rfl
  | cons p t ih =>
    intro h id
    have hp : p.1 = getId p.2 := h p (by simp)
    rw [List.map_cons, findById, assocLookup, hp]
    by_cases hid : (getId p.2 == id) = true
    · rw [if_pos hid, if_pos hid]
    · rw [if_neg hid, if_neg hid]
      exact ih (fun q hq => h q (by simp [hq])) id

/-- `findById` distributes over append, first list first. -/
theorem findById_append {α : Type} (getId : α → String) (id : String) :
    ∀ l1 l2 : List α, findById getId (l1 ++ l2) id =
      (match findById getId l1 id with
        | some x => some x
        | none => findById getId l2 id) := by
  intro l1 l2
  induction l1 with
  | nil => rfl
  | cons a t ih =>
    rw [List.cons_append, findById, findById]
    by_cases ha : (getId a == id) = true
    · rw [if_pos ha, if_pos ha]
    · rw [if_neg ha, if_neg ha]
      exact ih

/-- A successful `findById` returns a member with the requested id. -/
theorem findById_some {α : Type} (getId : α → String) (id : String) :
    ∀ (l : List α) (x : α), findById getId l id = some x → x ∈ l ∧ getId x = id := by
  intro l
  induction l with
  | nil => intro x h; exact nomatch h
  | cons a t ih =>
    intro x h
    rw [findById] at h
    by_cases ha : (getId a == id) = true
    · rw [if_pos ha] at h
      cases h
      exact ⟨by simp, by simpa using ha⟩
    · rw [if_neg ha] at h
      rcases ih x h with ⟨hmem, hid⟩
      exact ⟨by simp [hmem], hid⟩

/-- Disjoint merge evaluates to local-then-remote concatenation. -/
theorem mergeData_disjoint_eq {α : Type} (getId : α → String) (ls rs : List α)
    (hl : (ls.map getId).Nodup) (hr : (rs.map getId).Nodup)
    (hdisj : ∀ a ∈ ls, ∀ b ∈ rs, getId a ≠ getId b) :
    mergeData getId ls rs = ls ++ rs := by
  unfold mergeData
  rw [foldl_assocSet_append getId ls [] (by simp) hl]
  rw [foldl_assocSet_append getId rs _ ?fresh hr]
  · simp [Function.comp_def]
  case fresh =>
    intro b hb
    rw [List.nil_append, List.any_eq_false]
    intro p hp
    rcases List.mem_map.mp hp with ⟨a, ha, rfl⟩
    simp only [beq_iff_eq]
    exact fun hEq => hdisj a ha b hb hEq

/-- C4: the merge map is seeded with the local records and overwritten by the
remote ones.  Concretely, local {id1:A, id2:B} and remote {id2:C, id3:D}
merge to {id1:A, id2:C, id3:D}; in general every remote id is bound to its
remote record (remote precedence), and on disjoint id sets the merge is
commutative up to permutation, with identical lookups. -/
theorem mergeData_spec :
    mergeData Group.id [mergeGroupA, mergeGroupB] [mergeGroupC, mergeGroupD] =
      [mergeGroupA, mergeGroupC, mergeGroupD] ∧
    (∀ {α : Type} (getId : α → String) (ls rs : List α) (r : α),
      (rs.map getId).Nodup → r ∈ rs →
        findById getId (mergeData getId ls rs) (getId r) = some r) ∧
    (∀ {α : Type} (getId : α → String) (ls rs : List α),
      (ls.map getId).Nodup → (rs.map getId).Nodup →
      (∀ a ∈ ls, ∀ b ∈ rs, getId a ≠ getId b) →
        (mergeData getId ls rs).Perm (mergeData getId rs ls) ∧
        ∀ id, findById getId (mergeData getId ls rs) id =
          findById getId (mergeData getId rs ls) id) := by
  refine ⟨by decide, ?_, ?_⟩
  · intro α getId ls rs r hr hmem
    unfold mergeData
    have hco : KeyCoherent getId
        (rs.foldl (fun acc x => assocSet acc (getId x) x)
          (ls.foldl (fun acc x => assocSet acc (getId x) x) [])) := by
      apply keyCoherent_foldl
      apply keyCoherent_foldl
      intro p hp; exact absurd hp (by simp)
    rw [findById_values getId _ hco]
    exact foldl_assocSet_lookup_mem getId rs _ r hr hmem
  · intro α getId ls rs hl hr hdisj
    have h1 : mergeData getId ls rs = ls ++ rs := mergeData_disjoint_eq getId ls rs hl hr hdisj
    have h2 : mergeData getId rs ls = rs ++ ls :=
      mergeData_disjoint_eq getId rs ls hr hl (fun b hb a ha => (hdisj a ha b hb).symm)
    constructor
    · rw [h1, h2]; exact List.perm_append_comm
    · intro id
      rw [h1, h2]
      rw [findById_append, findById_append]
      rcases hfl : findById getId ls id with _ | a
      · rcases hfr : findById getId rs id with _ | b
        · simp
        · simp
      · rcases hfr : findById getId rs id with _ | b
        · simp
        · exfalso
          rcases findById_some getId id ls a hfl with ⟨ha, hpa⟩
          rcases findById_some getId id rs b hfr with ⟨hb, hpb⟩
          exact hdisj a ha b hb (hpa.trans hpb.symm)

/-- C4 witness: the remote record `C` wins the overlapping id `id2` in the
concrete merge. -/
theorem mergeData_spec_witness :
    findById Group.id
        (mergeData Group.id [mergeGroupA, mergeGroupB] [mergeGroupC, mergeGroupD])
        (Group.id mergeGroupC) = some mergeGroupC :=
  mergeData_spec.2.1 Group.id [mergeGroupA, mergeGroupB] [mergeGroupC, mergeGroupD]
    mergeGroupC (by decide) (by decide)

theorem eps_pos : 0 < eps := by norm_num [eps]

/-- Rounding to two decimals adds at most half a cent. -/
theorem round2_le (x : ℚ) : round2 x ≤ x + 1 / 200 := by
  unfold round2
  have h := Int.floor_le (x * 100 + 1 / 2)
  have h100 : (0 : ℚ) < 100 := by norm_num
  rw [div_le_iff h100]
  linarith

/-- The sweep's `i >= j` exit. -/
theorem settleLoop_stop (fuel : ℕ) (arr : List BalEntry) (i j : ℕ) (h : ¬ i < j) :
    settleLoop fuel arr i j = [] := by
  cases fuel with
  | zero => rfl
  | succ f => rw [settleLoop_step, if_neg h]

theorem balAt_set_self (arr : List BalEntry) (m : ℕ) (v : BalEntry) (h : m < arr.length) :
    balAt (arr.set m v) m = v.balance := by
  unfold balAt
  rw [List.getD_eq_getElem?_getD, List.getElem?_set_self h]
  rfl

theorem balAt_set_ne (arr : List BalEntry) (m k : ℕ) (v : BalEntry) (h : m ≠ k) :
    balAt (arr.set m v) k = balAt arr k := by
  unfold balAt
  rw [List.getD_eq_getElem?_getD, List.getD_eq_getElem?_getD, List.getElem?_set_ne h]

theorem posWin_nonneg (arr : List BalEntry) (i j : ℕ) : 0 ≤ posWin arr i j :=
  Finset.sum_nonneg (fun k _ => le_max_right (balAt arr k) 0)

/-- Per-state bound for the sweep: the total emitted amount is at most the
positive mass sitting strictly right of the debtor pointer, plus half a cent
of rounding per emitted transfer. -/
theorem settleLoop_sum_le :
    ∀ (fuel : ℕ) (arr : List BalEntry) (i j : ℕ), j < arr.length →
      transferTotal (settleLoop fuel arr i j) ≤
        posWin arr i j + (settleLoop fuel arr i j).length * (1 / 200) := by
  intro fuel
  induction fuel with
  | zero =>
    intro arr i j _
    simpa [settleLoop, transferTotal] using posWin_nonneg arr i j
  | succ fuel ih =>
    intro arr i j hj
    by_cases hij : i < j
    case neg =>
      rw [settleLoop_stop _ _ _ _ hij]
      simpa [transferTotal] using posWin_nonneg arr i j
    rw [settleLoop_step, if_pos hij]
    by_cases hbr : |balAt arr i| < eps ∧ balAt arr j < eps
    case pos =>
      rw [if_pos hbr]
      simpa [transferTotal] using posWin_nonneg arr i j
    rw [if_neg hbr]
    by_cases hamt : eps < min |balAt arr i| (balAt arr j)
    case neg =>
      rw [if_neg hamt]
      simpa [transferTotal] using posWin_nonneg arr i j
    rw [if_pos hamt]
    set A := min |balAt arr i| (balAt arr j) with hA
    set arr2 := (arr.set i ⟨nameAt arr i, balAt arr i + A⟩).set j
      ⟨nameAt arr j, balAt arr j - A⟩ with harr2
    set i2 := if |balAt arr i + A| < eps then i + 1 else i with hi2
    set j2 := if balAt arr j - A < eps then j - 1 else j with hj2
    have hA_le_c : A ≤ balAt arr j := min_le_right _ _
    have hA_pos : 0 < A := lt_trans eps_pos hamt
    have hc_pos : 0 < balAt arr j := lt_of_lt_of_le hA_pos hA_le_c
    have hi2_ge : i ≤ i2 := by rw [hi2]; split <;> omega
    have hj2_le : j2 ≤ j := by rw [hj2]; split <;> omega
    have hlen2 : arr2.length = arr.length := by rw [harr2]; simp
    have hj2_lt : j2 < arr2.length := by omega
    have hIH := ih arr2 i2 j2 hj2_lt
    have hsub : posWin arr2 i2 j2 ≤ posWin arr2 i j := by
      apply Finset.sum_le_sum_of_subset_of_nonneg
      · intro k hk
        rcases Finset.mem_Ioc.mp hk with ⟨hk1, hk2⟩
        exact Finset.mem_Ioc.mpr ⟨lt_of_le_of_lt hi2_ge hk1, le_trans hk2 hj2_le⟩
      · intro k _ _
        exact le_max_right _ _
    have hbj2 : balAt arr2 j = balAt arr j - A := by
      rw [harr2]
      exact balAt_set_self _ j _ (by simpa using hj)
    have hstep : posWin arr2 i j = posWin arr i j - max (balAt arr j) 0
        + max (balAt arr j - A) 0 := by
      unfold posWin
      have hjmem : j ∈ Finset.Ioc i j := Finset.mem_Ioc.mpr ⟨hij, le_refl j⟩
      rw [Finset.sum_eq_sum_diff_singleton_add hjmem (fun k => max (balAt arr2 k) 0),
        Finset.sum_eq_sum_diff_singleton_add hjmem (fun k => max (balAt arr k) 0)]
      have hcong : ∀ k ∈ Finset.Ioc i j \ {j},
          max (balAt arr2 k) 0 = max (balAt arr k) 0 := by
        intro k hk
        rcases Finset.mem_sdiff.mp hk with ⟨hk1, hk2⟩
        have hkj : j ≠ k := fun hEq => (by simpa [hEq] using hk2)
        have hki : i ≠ k := by
          have := (Finset.mem_Ioc.mp hk1).1
          omega
        rw [harr2, balAt_set_ne _ _ _ _ hkj, balAt_set_ne _ _ _ _ hki]
      rw [Finset.sum_congr rfl hcong, hbj2]
      ring
    have hmax1 : max (balAt arr j) 0 = balAt arr j := max_eq_left (le_of_lt hc_pos)
    have hmax2 : max (balAt arr j - A) 0 = balAt arr j - A := max_eq_left (by linarith)
    have hr2 : round2 A ≤ A + 1 / 200 := round2_le A
    simp only [transferTotal, List.map_cons, List.sum_cons, List.length_cons] at hIH ⊢
    push_cast
    push_cast at hIH
    have hfinal : posWin arr2 i2 j2 ≤ posWin arr i j - A := by
      rw [hstep, hmax1, hmax2] at hsub
      linarith
    linarith

/-- Bridging a list sum to an indexed `Finset.range` sum. -/
theorem list_map_sum_eq_range (f : BalEntry → ℚ) :
    ∀ l : List BalEntry, (l.map f).sum =
      ∑ k in Finset.range l.length, f (l.getD k ⟨"", 0⟩) := by
  intro l
  induction l with
  | nil => simp
  | cons a t ih =>
    rw [List.map_cons, List.sum_cons, List.length_cons, Finset.sum_range_succ']
    simp only [List.getD_cons_succ, List.getD_cons_zero]
    rw [ih]
    ring

/-- C3 (amended upper half): the emitted total never exceeds the positive
balances by more than the rounding slack of half a cent per transfer. -/
theorem settle_sum_upper (s : Store) (gid : String) :
    transferTotal (getSimplifiedBalances s gid) ≤
      positiveTotal (calculateBalances s gid) +
        (getSimplifiedBalances s gid).length * (1 / 200) := by
  have hpos : 0 ≤ positiveTotal (calculateBalances s gid) := by
    apply List.sum_nonneg
    intro x hx
    rcases List.mem_map.mp hx with ⟨p, _, hp⟩
    rw [← hp]
    exact le_max_right _ _
  unfold getSimplifiedBalances
  set BA := (calculateBalances s gid).map (fun p => BalEntry.mk p.1 p.2) with hBA
  set A := sortByBalance BA with hAdef
  rcases Nat.eq_zero_or_pos A.length with hn | hn
  · rw [settleLoop_stop _ _ _ _ (by omega)]
    simpa [transferTotal] using hpos
  · have hj : A.length - 1 < A.length := by omega
    refine le_trans (settleLoop_sum_le (settleFuel A) A 0 (A.length - 1) hj) ?_
    have h3 : posWin A 0 (A.length - 1) ≤
        ∑ k in Finset.range A.length, max (balAt A k) 0 := by
      apply Finset.sum_le_sum_of_subset_of_nonneg
      · intro k hk
        rcases Finset.mem_Ioc.mp hk with ⟨_, hk2⟩
        exact Finset.mem_range.mpr (by omega)
      · intro k _ _
        exact le_max_right _ _
    have h4 : ∑ k in Finset.range A.length, max (balAt A k) 0 =
        (A.map (fun e => max e.balance 0)).sum := by
      rw [list_map_sum_eq_range (fun e => max e.balance 0) A]
      rfl
    have h5 : (A.map (fun e => max e.balance 0)).sum =
        (BA.map (fun e => max e.balance 0)).sum :=
      ((List.perm_insertionSort _ BA).map _).sum_eq
    have h6 : (BA.map (fun e => max e.balance 0)).sum =
        positiveTotal (calculateBalances s gid) := by
      rw [hBA]
      unfold positiveTotal
      rw [List.map_map]
      rfl
    have : posWin A 0 (A.length - 1) ≤ positiveTotal (calculateBalances s gid) := by
      rw [h4, h5, h6] at h3
      exact h3
    linarith

/-- C9: when no stored group carries the requested id, `calculateBalances`
returns the empty mapping, whatever expenses carry that group id. -/
theorem calculateBalances_unknown_group (s : Store) (gid : String)
    (h : ∀ g ∈ s.groups, g.id ≠ gid) :
    calculateBalances s gid = [] := by
  have hfind : getGroupById s gid = none := by
    unfold getGroupById
    rw [List.find?_eq_none]
    intro g hg
    simpa using h g hg
  unfold calculateBalances
  rw [hfind]

/-- C9 witness: a store with an expense pointing at the absent group `g1`. -/
theorem calculateBalances_unknown_group_witness :
    calculateBalances orphanStore "g1" = [] :=
  calculateBalances_unknown_group orphanStore "g1" (by intro g hg; simp [orphanStore] at hg)

/-- C2 counterexample: in a one-participant group with an expense paid by an
outsider, the sweep emits one transfer although the claim allows
`max(0, 1 - 1) = 0`.  The balance map has two entries (A and the outsider B),
so the claimed bound in terms of the group participant count fails. -/
theorem settle_count_exceeds_participants :
    ¬ ((getSimplifiedBalances outsiderStore "g2").length ≤
        outsiderGroup.participants.length - 1) := by
  simp [getSimplifiedBalances, calculateBalances, getGroupById, getExpenses, applyExpense,
    mapSet, mapGetD, outsiderStore, outsiderGroup, outsiderExpense, sortByBalance,
    List.insertionSort, List.orderedInsert, settleFuel, balAt, nameAt, eps]
  norm_num
  rw [show (3 + Int.toNat 20000 : ℕ) = 20002 + 1 from by decide, settleLoop_step]
  norm_num [balAt, nameAt, eps, round2]
  rw [show (20002 : ℕ) = 20001 + 1 from by norm_num, settleLoop_step]
  norm_num [balAt, nameAt, eps, round2]

/-- C3 counterexample: with balances A:-30.018 and B, C, D at +10.006 each,
the sweep emits A→D, A→C, A→B of 10.01 each (the amount 10.006 rounded to
cents for the emitted record) while the balances are mutated by the unrounded
amounts, so the emitted total 30.03 exceeds the positive-balance total 30.018
by 0.012 — above the claimed 0.01 tolerance.  No branch is decided by less
than 0.001, so the trace is the same in IEEE doubles. -/
theorem settle_sum_exceeds_tolerance :
    ¬ (|transferTotal (getSimplifiedBalances roundStore "g4") -
        positiveTotal (calculateBalances roundStore "g4")| ≤ 1 / 100) := by
  have hceil : (⌈(30018 / 5 : ℚ)⌉ : ℤ) = 6004 := by
    rw [Int.ceil_eq_iff]
    norm_num
  simp [getSimplifiedBalances, calculateBalances, getGroupById, getExpenses, applyExpense,
    mapSet, mapGetD, roundStore, roundGroup, roundExpense1, roundExpense2, roundExpense3,
    sortByBalance, List.insertionSort, List.orderedInsert, settleFuel, balAt, nameAt, eps,
    transferTotal, positiveTotal]
  norm_num [abs_of_pos, abs_of_nonpos, hceil]
  rw [show (5 + Int.toNat 6004 : ℕ) = 6008 + 1 from by decide, settleLoop_step]
  norm_num [balAt, nameAt, eps, round2, abs_of_pos, abs_of_nonpos]
  rw [show (6008 : ℕ) = 6007 + 1 from by norm_num, settleLoop_step]
  norm_num [balAt, nameAt, eps, round2, abs_of_pos, abs_of_nonpos]
  rw [show (6007 : ℕ) = 6006 + 1 from by norm_num, settleLoop_step]
  norm_num [balAt, nameAt, eps, round2, abs_of_pos, abs_of_nonpos]
  rw [show (6006 : ℕ) = 6005 + 1 from by norm_num, settleLoop_step]
  norm_num [balAt, nameAt, eps, round2, abs_of_pos, abs_of_nonpos]

/-- Monotonicity of the ceiling-ratio potential in numerator and
denominator. -/
theorem potNat_mono {x y dp1 dp2 : ℚ} (h1 : eps ≤ dp1) (h12 : dp1 ≤ dp2) (hxy : x ≤ y) :
    (⌈x / dp2⌉).toNat ≤ (⌈y / dp1⌉).toNat := by
  have hdp1 : 0 < dp1 := lt_of_lt_of_le eps_pos h1
  have hdp2 : 0 < dp2 := lt_of_lt_of_le hdp1 h12
  rcases le_or_lt x 0 with hx | hx
  · have hle : ⌈x / dp2⌉ ≤ 0 := by
      rw [Int.ceil_le]
      push_cast
      exact div_nonpos_of_nonpos_of_nonneg hx (le_of_lt hdp2)
    omega
  · have hstep1 : x / dp2 ≤ x / dp1 :=
      div_le_div_of_nonneg_left (le_of_lt hx) hdp1 h12
    have hstep2 : x / dp1 ≤ y / dp1 :=
      (div_le_div_iff_of_pos_right hdp1).mpr hxy
    have := Int.ceil_le_ceil (le_trans hstep1 hstep2)
    omega

/-- The potential grows by at most one when the window sum grows by at most
`eps` and the old debtor side was nonpositive. -/
theorem potNat_le_succ {x y dp : ℚ} (hdp : eps ≤ dp) (hxy : x ≤ y + eps) :
    (⌈x / dp⌉).toNat ≤ (⌈y / eps⌉).toNat + 1 := by
  have h1 : (⌈x / dp⌉).toNat ≤ (⌈(y + eps) / eps⌉).toNat :=
    potNat_mono (le_refl eps) hdp hxy
  have h2 : (y + eps) / eps = y / eps + 1 := by
    rw [add_div, div_self (ne_of_gt eps_pos)]
  rw [h2, Int.ceil_add_one] at h1
  omega

/-- Halving the ratio loses one whole unit of potential once the ratio is at
least two. -/
theorem ceil_half_add_one_le {x : ℚ} (hx : 2 ≤ x) : ⌈x / 2⌉ + 1 ≤ ⌈x⌉ := by
  rw [show (⌈x / 2⌉ + 1 : ℤ) = ⌈x / 2 + 1⌉ from (Int.ceil_add_one _).symm]
  exact Int.ceil_le_ceil (by linarith)

/-- Splitting the window sum at both pointers. -/
theorem winSum_split (arr : List BalEntry) (i j : ℕ) (hij : i < j) :
    winSum arr i j = balAt arr i + (∑ k in Finset.Ioo i j, balAt arr k) + balAt arr j := by
  unfold winSum
  have himem : i ∈ Finset.Icc i j := Finset.mem_Icc.mpr ⟨le_refl i, le_of_lt hij⟩
  rw [← Finset.add_sum_erase _ _ himem, Finset.Icc_erase_left]
  have hjmem : j ∈ Finset.Ioc i j := Finset.mem_Ioc.mpr ⟨hij, le_refl j⟩
  rw [← Finset.sum_erase_add _ _ hjmem, Finset.Ioc_erase_right]
  ring

/-- Dropping the left endpoint of the window. -/
theorem winSum_drop_left (arr : List BalEntry) (i j : ℕ) (hij : i ≤ j) :
    winSum arr (i + 1) j = winSum arr i j - balAt arr i := by
  unfold winSum
  have himem : i ∈ Finset.Icc i j := Finset.mem_Icc.mpr ⟨le_refl i, hij⟩
  rw [← Finset.add_sum_erase _ _ himem, Finset.Icc_erase_left, ← Nat.Icc_succ_left]
  ring

/-- Dropping the right endpoint of the window. -/
theorem winSum_drop_right (arr : List BalEntry) (i j : ℕ) (hij : i < j) :
    winSum arr i (j - 1) = winSum arr i j - balAt arr j := by
  unfold winSum
  have hjmem : j ∈ Finset.Icc i j := Finset.mem_Icc.mpr ⟨le_of_lt hij, le_refl j⟩
  rw [← Finset.sum_erase_add _ _ hjmem, Finset.Icc_erase_right]
  have hj1 : Finset.Ico i j = Finset.Icc i (j - 1) := by
    rw [← Nat.Ico_succ_right]
    congr 1
    omega
  rw [hj1]
  ring

/-- The two balance mutations of one emission leave the full window sum
unchanged in total when they move the same amount. -/
theorem winSum_set_pair (arr : List BalEntry) (i j : ℕ) (vi vj : BalEntry)
    (hij : i < j) (hj : j < arr.length) :
    winSum ((arr.set i vi).set j vj) i j =
      winSum arr i j - balAt arr i - balAt arr j + vi.balance + vj.balance := by
  have hi : i < arr.length := lt_trans hij hj
  have hji : j ≠ i := by omega
  have hb_i : balAt ((arr.set i vi).set j vj) i = vi.balance := by
    rw [balAt_set_ne _ _ _ _ hji, balAt_set_self _ _ _ hi]
  have hb_j : balAt ((arr.set i vi).set j vj) j = vj.balance := by
    rw [balAt_set_self _ _ _ (by simpa using hj)]
  rw [winSum_split _ _ _ hij, winSum_split arr _ _ hij, hb_i, hb_j]
  have hcong : ∀ k ∈ Finset.Ioo i j,
      balAt ((arr.set i vi).set j vj) k = balAt arr k := by
    intro k hk
    rcases Finset.mem_Ioo.mp hk with ⟨hk1, hk2⟩
    rw [balAt_set_ne _ _ _ _ (by omega), balAt_set_ne _ _ _ _ (by omega)]
  rw [Finset.sum_congr rfl hcong]
  ring

/-- Monotone access into the sorted original balances. -/
theorem orig_getD_mono {orig : List ℚ} (hsort : orig.Pairwise (· ≤ ·))
    {i k : ℕ} (hik : i ≤ k) (hk : k < orig.length) :
    orig.getD i 0 ≤ orig.getD k 0 := by
  rcases Nat.eq_or_lt_of_le hik with hEq | hlt
  · rw [hEq]
  · have hi : i < orig.length := lt_trans hlt hk
    rw [List.getD_eq_getElem _ _ hi, List.getD_eq_getElem _ _ hk]
    exact List.pairwise_iff_get.mp hsort ⟨i, hi⟩ ⟨k, hk⟩ hlt

/-- Main counting bound for the sweep: from any reachable state the number
of emitted transfers is at most the window width plus the potential.  The
hypotheses say: `orig` is the sorted initial balance sequence, the interior
of the window is untouched, and the debtor slot only ever grew (and went
positive only if it started positive). -/
theorem settleLoop_length_le (orig : List ℚ) :
    ∀ (fuel : ℕ) (arr : List BalEntry) (i j : ℕ),
      arr.length = orig.length →
      orig.Pairwise (· ≤ ·) →
      j < arr.length →
      (∀ k, i < k → k < j → balAt arr k = orig.getD k 0) →
      (i < arr.length →
        orig.getD i 0 ≤ balAt arr i ∧ (0 < balAt arr i → 0 < orig.getD i 0)) →
      (settleLoop fuel arr i j).length ≤ (j - i) + potT arr i j := by
  intro fuel
  induction fuel with
  | zero => intro arr i j _ _ _ _ _; simp [settleLoop]
  | succ fuel ih =>
    intro arr i j hlen hsort hj hmid hati
    by_cases hij : i < j
    case neg => rw [settleLoop_stop _ _ _ _ hij]; simp
    rw [settleLoop_step, if_pos hij]
    by_cases hbr : |balAt arr i| < eps ∧ balAt arr j < eps
    case pos => rw [if_pos hbr]; simp
    rw [if_neg hbr]
    by_cases hamt : eps < min |balAt arr i| (balAt arr j)
    case neg => rw [if_neg hamt]; simp
    rw [if_pos hamt]
    set A := min |balAt arr i| (balAt arr j) with hA
    set arr2 := (arr.set i ⟨nameAt arr i, balAt arr i + A⟩).set j
      ⟨nameAt arr j, balAt arr j - A⟩ with harr2
    set i2 := if |balAt arr i + A| < eps then i + 1 else i with hi2
    set j2 := if balAt arr j - A < eps then j - 1 else j with hj2
    simp only [List.length_cons]
    have hi_lt : i < arr.length := lt_trans hij hj
    have hA_le_d : A ≤ |balAt arr i| := min_le_left _ _
    have hA_le_c : A ≤ balAt arr j := min_le_right _ _
    have hA_pos : 0 < A := lt_trans eps_pos hamt
    have habs_d : eps < |balAt arr i| := lt_of_lt_of_le hamt hA_le_d
    have hc_eps : eps < balAt arr j := lt_of_lt_of_le hamt hA_le_c
    have hlen2 : arr2.length = arr.length := by rw [harr2]; simp
    have hbi2 : balAt arr2 i = balAt arr i + A := by
      rw [harr2, balAt_set_ne _ _ _ _ (show j ≠ i by omega), balAt_set_self _ _ _ hi_lt]
    have hbj2 : balAt arr2 j = balAt arr j - A := by
      rw [harr2, balAt_set_self _ _ _ (by simpa using hj)]
    have hws2 : winSum arr2 i j = winSum arr i j := by
      rw [harr2, winSum_set_pair arr i j _ _ hij hj]
      show winSum arr i j - balAt arr i - balAt arr j
          + (balAt arr i + A) + (balAt arr j - A) = winSum arr i j
      ring
    by_cases hrec : i2 < j2
    case neg =>
      rw [settleLoop_stop fuel arr2 i2 j2 hrec]
      simp only [List.length_nil]
      omega
    have hj2_le : j2 ≤ j := by rw [hj2]; split <;> omega
    have hi2_ge : i ≤ i2 := by rw [hi2]; split <;> omega
    have hi2_le : i2 ≤ i + 1 := by rw [hi2]; split <;> omega
    have hmid2 : ∀ k, i2 < k → k < j2 → balAt arr2 k = orig.getD k 0 := by
      intro k hk1 hk2
      have hki : i < k := lt_of_le_of_lt hi2_ge hk1
      have hkj : k < j := lt_of_lt_of_le hk2 hj2_le
      rw [harr2, balAt_set_ne _ _ _ _ (by omega), balAt_set_ne _ _ _ _ (by omega)]
      exact hmid k hki hkj
    have hati2 : i2 < arr2.length →
        orig.getD i2 0 ≤ balAt arr2 i2 ∧ (0 < balAt arr2 i2 → 0 < orig.getD i2 0) := by
      intro _
      rcases Nat.eq_or_lt_of_le hi2_ge with hEq | hlt2
      · rw [← hEq, hbi2]
        constructor
        · have := (hati hi_lt).1
          linarith
        · intro hpos
          have hd_pos : 0 < balAt arr i := by
            by_contra hcon
            push_neg at hcon
            have habs : |balAt arr i| = -balAt arr i := abs_of_nonpos hcon
            rw [habs] at hA_le_d
            linarith
          exact (hati hi_lt).2 hd_pos
      · have hI : i2 = i + 1 := by omega
        have hin : i < i2 ∧ i2 < j := by
          constructor
          · omega
          · have := lt_of_lt_of_le hrec hj2_le
            exact this
        have hval : balAt arr2 i2 = orig.getD i2 0 := by
          rw [harr2, balAt_set_ne _ _ _ _ (by omega), balAt_set_ne _ _ _ _ (by omega)]
          exact hmid i2 hin.1 hin.2
        rw [hval]
        exact ⟨le_refl _, fun h => h⟩
    have hIH := ih arr2 i2 j2 (by omega) hsort (by omega) hmid2 hati2
    -- the potential inequality, by cases on the sign of the debtor and the
    -- two advance conditions
    have hkey : (j2 - i2) + potT arr2 i2 j2 + 1 ≤ (j - i) + potT arr i j := by
      rcases le_or_lt (balAt arr i) 0 with hd | hd
      · -- nonpositive debtor
        have habs : |balAt arr i| = -balAt arr i := abs_of_nonpos hd
        have hdA : balAt arr i + A ≤ 0 := by rw [habs] at hA_le_d; linarith
        have hT : potT arr i j = (⌈winSum arr i j / eps⌉).toNat := by
          unfold potT
          rw [max_eq_right (le_trans hd (le_of_lt eps_pos))]
        by_cases hadvi : |balAt arr i + A| < eps
        · have hI : i2 = i + 1 := by rw [hi2, if_pos hadvi]
          have hr_small : -(balAt arr i + A) < eps := by
            have := (abs_lt.mp hadvi).1
            linarith
          by_cases hadvj : balAt arr j - A < eps
          · -- both pointers advance
            have hJ : j2 = j - 1 := by rw [hj2, if_pos hadvj]
            have hijJ : i + 1 < j - 1 := by omega
            have hws2p : winSum arr2 i2 j2 =
                winSum arr i j - (balAt arr i + A) - (balAt arr j - A) := by
              rw [hI, hJ, winSum_drop_right arr2 (i + 1) j (by omega),
                winSum_drop_left arr2 i j (le_of_lt hij), hws2, hbi2, hbj2]
            have hx : winSum arr2 i2 j2 ≤ winSum arr i j + eps := by
              rw [hws2p]
              linarith
            have hT2 : potT arr2 i2 j2 ≤ (⌈winSum arr i j / eps⌉).toNat + 1 := by
              unfold potT
              exact potNat_le_succ (le_max_right _ _) hx
            rw [hT]
            omega
          · -- only the debtor pointer advances: the residual is exactly zero
            have hJ : j2 = j := by rw [hj2, if_neg hadvj]
            have hr0 : balAt arr i + A = 0 := by
              rcases min_cases |balAt arr i| (balAt arr j) with ⟨hmin, _⟩ | ⟨hmin, _⟩
              · rw [← hA] at hmin
                rw [hmin, habs]
                ring
              · rw [← hA] at hmin
                exfalso
                apply hadvj
                rw [hmin]
                simpa using eps_pos
            have hws2p : winSum arr2 i2 j2 = winSum arr i j := by
              rw [hI, hJ, winSum_drop_left arr2 i j (le_of_lt hij), hws2, hbi2, hr0]
              ring
            have hT2 : potT arr2 i2 j2 ≤ (⌈winSum arr i j / eps⌉).toNat := by
              unfold potT
              rw [hws2p]
              exact potNat_mono (le_refl eps) (le_max_right _ _) (le_refl _)
            rw [hT]
            omega
        · -- debtor does not advance: residual stays, creditor is zeroed
          have hI : i2 = i := by rw [hi2, if_neg hadvi]
          have hAc : A = balAt arr j := by
            rcases min_cases |balAt arr i| (balAt arr j) with ⟨hmin, _⟩ | ⟨hmin, _⟩
            · exfalso
              apply hadvi
              rw [← hA] at hmin
              rw [hmin, habs]
              simpa using eps_pos
            · rw [← hA] at hmin
              exact hmin
          have hadvj : balAt arr j - A < eps := by
            rw [hAc]
            simpa using eps_pos
          have hJ : j2 = j - 1 := by rw [hj2, if_pos hadvj]
          have hdplus2 : max (balAt arr2 i2) eps = eps := by
            rw [hI, hbi2]
            exact max_eq_right (le_trans hdA (le_of_lt eps_pos))
          have hws2p : winSum arr2 i2 j2 = winSum arr i j := by
            rw [hI, hJ, winSum_drop_right arr2 i j hij, hws2, hbj2, hAc]
            ring
          have hT2 : potT arr2 i2 j2 ≤ (⌈winSum arr i j / eps⌉).toNat := by
            unfold potT
            rw [hws2p, hdplus2]
          rw [hT]
          omega
      · -- positive debtor
        have habs : |balAt arr i| = balAt arr i := abs_of_pos hd
        have hd_eps : eps < balAt arr i := by rw [habs] at habs_d; exact habs_d
        have hT : potT arr i j = (⌈winSum arr i j / balAt arr i⌉).toNat := by
          unfold potT
          rw [max_eq_left (le_of_lt hd_eps)]
        have hadvi : ¬ |balAt arr i + A| < eps := by
          rw [abs_of_pos (by linarith)]
          push_neg
          linarith
        have hI : i2 = i := by rw [hi2, if_neg hadvi]
        have hdplus2 : max (balAt arr2 i2) eps = balAt arr i + A := by
          rw [hI, hbi2]
          exact max_eq_left (by linarith [le_of_lt eps_pos])
        by_cases hadvj : balAt arr j - A < eps
        · -- creditor advances
          have hJ : j2 = j - 1 := by rw [hj2, if_pos hadvj]
          have hws2p : winSum arr2 i2 j2 = winSum arr i j - (balAt arr j - A) := by
            rw [hI, hJ, winSum_drop_right arr2 i j hij, hws2, hbj2]
          have hT2 : potT arr2 i2 j2 ≤ (⌈winSum arr i j / balAt arr i⌉).toNat := by
            unfold potT
            rw [hws2p, hdplus2]
            exact potNat_mono (le_of_lt hd_eps) (by linarith) (by linarith)
          rw [hT]
          omega
        · -- no pointer advances: the ratio halves
          have hJ : j2 = j := by rw [hj2, if_neg hadvj]
          rcases min_choice |balAt arr i| (balAt arr j) with hmin | hmin
          · rw [← hA] at hmin
            have hAd : A = balAt arr i := by rw [hmin, habs]
            have hd_le_c : balAt arr i ≤ balAt arr j := by
              have hmr := min_le_right |balAt arr i| (balAt arr j)
              rw [← hA, hAd] at hmr
              exact hmr
            have horig_i_pos : 0 < orig.getD i 0 := (hati hi_lt).2 hd
            have hinterior : 0 ≤ ∑ k in Finset.Ioo i j, balAt arr k := by
              apply Finset.sum_nonneg
              intro k hk
              rcases Finset.mem_Ioo.mp hk with ⟨hk1, hk2⟩
              rw [hmid k hk1 hk2]
              have hkpos : 0 < orig.getD k 0 :=
                lt_of_lt_of_le horig_i_pos (orig_getD_mono hsort (le_of_lt hk1) (by omega))
              linarith
            have hws_ge : 2 * balAt arr i ≤ winSum arr i j := by
              rw [winSum_split arr i j hij]
              linarith
            have hx : 2 ≤ winSum arr i j / balAt arr i := by
              rw [le_div_iff₀ hd]
              linarith
            have hceil := ceil_half_add_one_le hx
            rw [div_div] at hceil
            have hT2 : potT arr2 i2 j2 =
                (⌈winSum arr i j / (balAt arr i * 2)⌉).toNat := by
              unfold potT
              rw [hdplus2, hI, hJ, hws2, hAd]
              rw [show balAt arr i + balAt arr i = balAt arr i * 2 from by ring]
            have hceil2 : 2 ≤ ⌈winSum arr i j / balAt arr i⌉ := by
              have h2 := Int.ceil_le_ceil hx
              simpa using h2
            rw [hT, hT2]
            omega
          · exfalso
            apply hadvj
            rw [← hA] at hmin
            rw [hmin]
            simpa using eps_pos
    omega

/-- `Map.set` with a key differing from the head commutes with cons. -/
theorem mapSet_cons_ne (p : String × ℚ) (t : List (String × ℚ)) (k : String) (v : ℚ)
    (hp : (p.1 == k) = false) :
    mapSet (p :: t) k v = p :: mapSet t k v := by
  unfold mapSet
  by_cases ht : t.any (fun q => q.1 == k)
  · rw [if_pos (by simp [List.any_cons, hp, ht]), if_pos ht, List.map_cons,
      if_neg (by simp [hp])]
  · rw [if_neg (by simp [List.any_cons, hp, ht]), if_neg ht, List.cons_append]

theorem mapGetD_cons_ne (p : String × ℚ) (t : List (String × ℚ)) (k : String) (d : ℚ)
    (hp : (p.1 == k) = false) :
    mapGetD (p :: t) k d = mapGetD t k d := by
  unfold mapGetD
  rw [List.find?_cons_of_neg _ (by simp [hp])]

theorem mapSum_cons (p : String × ℚ) (t : List (String × ℚ)) :
    mapSum (p :: t) = p.2 + mapSum t := by
  simp [mapSum]

/-- Effect of `Map.set` on the total of a duplicate-free map. -/
theorem mapSum_mapSet (k : String) (v : ℚ) :
    ∀ m : List (String × ℚ), NodupKeys m →
      mapSum (mapSet m k v) = mapSum m + v - mapGetD m k 0 := by
  intro m
  induction m with
  | nil =>
    intro _
    simp [mapSet, mapSum, mapGetD]
  | cons p t ih =>
    intro hnd
    have hcons : (p.1 :: t.map (fun q => q.1)).Nodup := hnd
    have hnd2 : (∀ q ∈ t, ¬ q.1 = p.1) ∧ NodupKeys t := by
      rcases List.nodup_cons.mp hcons with ⟨hnotmem, hrest⟩
      refine ⟨?_, hrest⟩
      intro q hq hq1
      exact hnotmem (hq1 ▸ List.mem_map_of_mem (fun q => q.1) hq)
    by_cases hp : (p.1 == k) = true
    · have hkeq : p.1 = k := by simpa using hp
      have htnone : ∀ q ∈ t, (q.1 == k) = false := by
        intro q hq
        have hne : q.1 ≠ k := by
          rw [← hkeq]
          exact hnd2.1 q hq
        simpa using hne
      have hmap_t : t.map (fun q => if q.1 == k then (k, v) else q) = t := by
        have h1 : t.map (fun q => if q.1 == k then (k, v) else q) = t.map id :=
          List.map_congr_left (fun q hq => by simp [htnone q hq])
        rw [h1, List.map_id]
      have hset : mapSet (p :: t) k v = (k, v) :: t := by
        unfold mapSet
        rw [if_pos (by simp [List.any_cons, hp]), List.map_cons, if_pos hp, hmap_t]
      rw [hset, mapSum_cons, mapSum_cons]
      have hfind : (p :: t).find? (fun q => q.1 == k) = some p :=
        List.find?_cons_of_pos t hp
      have hget : mapGetD (p :: t) k 0 = p.2 := by
        unfold mapGetD
        rw [hfind]
      rw [hget]
      ring
    · have hpf : (p.1 == k) = false := by simpa using hp
      rw [mapSet_cons_ne p t k v hpf, mapSum_cons, mapSum_cons, ih hnd2.2,
        mapGetD_cons_ne p t k 0 hpf]
      ring

/-- `Map.set` keeps the keys duplicate-free. -/
theorem nodupKeys_mapSet (k : String) (v : ℚ) :
    ∀ m : List (String × ℚ), NodupKeys m → NodupKeys (mapSet m k v) := by
  intro m hm
  unfold mapSet
  by_cases hany : m.any (fun p => p.1 == k)
  · rw [if_pos hany]
    have hkeys : (m.map (fun p => if p.1 == k then (k, v) else p)).map (fun p => p.1) =
        m.map (fun p => p.1) := by
      rw [List.map_map]
      apply List.map_congr_left
      intro q _
      by_cases hq1 : q.1 = k
      · simp [Function.comp_def, hq1]
      · simp [Function.comp_def, hq1]
    unfold NodupKeys
    rw [hkeys]
    exact hm
  · rw [if_neg hany]
    unfold NodupKeys
    rw [List.map_append, List.nodup_append]
    refine ⟨hm, by simp, ?_⟩
    intro a ha hb
    rcases List.mem_map.mp ha with ⟨q, hq, hqa⟩
    have hbk : a = k := by simpa using hb
    have hanyf : m.any (fun p => p.1 == k) = false := by
      rcases Bool.eq_false_or_eq_true (m.any fun p => p.1 == k) with h | h
      · exact absurd h hany
      · exact h
    apply List.any_eq_false.mp hanyf q hq
    simp [hqa, hbk]

theorem mapGetD_allZero (k : String) (m : List (String × ℚ))
    (hz : ∀ q ∈ m, q.2 = 0) : mapGetD m k 0 = 0 := by
  unfold mapGetD
  rcases hf : m.find? (fun p => p.1 == k) with _ | q
  · rw [hf]
  · rw [hf]
    exact hz q (List.mem_of_find?_eq_some hf)

theorem mapSet_allZero (k : String) (m : List (String × ℚ))
    (hz : ∀ q ∈ m, q.2 = 0) : ∀ q ∈ mapSet m k 0, q.2 = 0 := by
  intro q hq
  unfold mapSet at hq
  by_cases hany : m.any (fun p => p.1 == k)
  · rw [if_pos hany] at hq
    rcases List.mem_map.mp hq with ⟨r, hr, hrq⟩
    by_cases hr1 : (r.1 == k) = true
    · rw [if_pos hr1] at hrq
      rw [← hrq]
    · rw [if_neg hr1] at hrq
      rw [← hrq]
      exact hz r hr
  · rw [if_neg hany] at hq
    rcases List.mem_append.mp hq with hq2 | hq2
    · exact hz q hq2
    · have : q = (k, 0) := by simpa using hq2
      rw [this]

/-- Seeding the participants keeps the map all-zero and duplicate-free. -/
theorem seeded_props :
    ∀ (ps : List String) (m : List (String × ℚ)), NodupKeys m → (∀ q ∈ m, q.2 = 0) →
      NodupKeys (ps.foldl (fun b p => mapSet b p 0) m) ∧
      (∀ q ∈ ps.foldl (fun b p => mapSet b p 0) m, q.2 = 0) := by
  intro ps
  induction ps with
  | nil => intro m h1 h2; exact ⟨h1, h2⟩
  | cons p pt ih =>
    intro m h1 h2
    simp only [List.foldl_cons]
    exact ih _ (nodupKeys_mapSet p 0 m h1) (mapSet_allZero p m h2)

/-- Subtracting the per-person share from every participant lowers the map
total by exactly `length * share`. -/
theorem foldl_subtract_share (share : ℚ) :
    ∀ (ps : List String) (m : List (String × ℚ)), NodupKeys m →
      mapSum (ps.foldl (fun b p => mapSet b p (mapGetD b p 0 - share)) m) =
        mapSum m - ps.length * share ∧
      NodupKeys (ps.foldl (fun b p => mapSet b p (mapGetD b p 0 - share)) m) := by
  intro ps
  induction ps with
  | nil => intro m hm; exact ⟨by simp, hm⟩
  | cons p pt ih =>
    intro m hm
    simp only [List.foldl_cons]
    rcases ih _ (nodupKeys_mapSet p _ m hm) with ⟨hsum, hnd⟩
    refine ⟨?_, hnd⟩
    rw [hsum, mapSum_mapSet p _ m hm, List.length_cons]
    push_cast
    ring

/-- Every expense contributes zero net to the balance map. -/
theorem applyExpense_mapSum (b : List (String × ℚ)) (e : Expense) (hb : NodupKeys b)
    (he : e.settled = false → e.participants ≠ []) :
    mapSum (applyExpense b e) = mapSum b ∧ NodupKeys (applyExpense b e) := by
  unfold applyExpense
  by_cases hs : e.settled
  · rw [if_pos hs]
    exact ⟨rfl, hb⟩
  · rw [if_neg hs]
    have hlen : e.participants.length ≠ 0 := by
      intro h0
      exact (he (by simpa using hs)) (List.length_eq_zero.mp h0)
    have hlenQ : (e.participants.length : ℚ) ≠ 0 := by
      exact_mod_cast hlen
    rcases foldl_subtract_share (e.amount / e.participants.length) e.participants
      (mapSet b e.paidBy (mapGetD b e.paidBy 0 + e.amount))
      (nodupKeys_mapSet e.paidBy _ b hb) with ⟨hsum, hnd⟩
    refine ⟨?_, hnd⟩
    rw [hsum, mapSum_mapSet e.paidBy _ b hb]
    rw [mul_div_cancel₀ e.amount hlenQ]
    ring

theorem foldl_applyExpense_props :
    ∀ (l : List Expense) (m : List (String × ℚ)), NodupKeys m →
      (∀ e ∈ l, e.settled = false → e.participants ≠ []) →
      mapSum (l.foldl applyExpense m) = mapSum m ∧
      NodupKeys (l.foldl applyExpense m) := by
  intro l
  induction l with
  | nil => intro m h1 _; exact ⟨rfl, h1⟩
  | cons e t ih =>
    intro m h1 h2
    simp only [List.foldl_cons]
    rcases applyExpense_mapSum m e h1 (h2 e (by simp)) with ⟨hsum, hnd⟩
    rcases ih _ hnd (fun e2 he2 => h2 e2 (by simp [he2])) with ⟨hsum2, hnd2⟩
    exact ⟨by rw [hsum2, hsum], hnd2⟩

/-- The balance map always totals zero (participants of an unsettled expense
are assumed nonempty, the spec model invariant). -/
theorem calculateBalances_mapSum (s : Store) (gid : String)
    (hpart : ∀ e ∈ getExpenses s gid, e.settled = false → e.participants ≠ []) :
    mapSum (calculateBalances s gid) = 0 := by
  unfold calculateBalances
  rcases getGroupById s gid with _ | g
  · rfl
  · show mapSum ((getExpenses s gid).foldl applyExpense
      (g.participants.foldl (fun b p => mapSet b p 0) [])) = 0
    have hseed := seeded_props g.participants [] (by simp [NodupKeys]) (by simp)
    have hseedsum : mapSum (g.participants.foldl (fun b p => mapSet b p 0) []) = 0 := by
      apply List.sum_eq_zero
      intro x hx
      rcases List.mem_map.mp hx with ⟨q, hq, hqx⟩
      rw [← hqx]
      exact hseed.2 q hq
    rcases foldl_applyExpense_props (getExpenses s gid) _ hseed.1 hpart with ⟨hsum, _⟩
    rw [hsum, hseedsum]

/-- Reading the projected balances list at an index. -/
theorem getD_map_balance (l : List BalEntry) (k : ℕ) (hk : k < l.length) :
    (l.map (fun e => e.balance)).getD k 0 = balAt l k := by
  rw [List.getD_eq_getElem _ _ (by simpa using hk), List.getElem_map]
  unfold balAt
  rw [List.getD_eq_getElem _ _ hk]

/-- The full window is the whole array. -/
theorem winSum_total (arr : List BalEntry) (hlen : arr.length ≠ 0) :
    winSum arr 0 (arr.length - 1) = (arr.map (fun e => e.balance)).sum := by
  unfold winSum
  rw [list_map_sum_eq_range (fun e => e.balance) arr]
  have hIcc : Finset.Icc 0 (arr.length - 1) = Finset.range arr.length := by
    rw [Finset.range_eq_Ico, ← Nat.Ico_succ_right]
    congr 1
    omega
  rw [hIcc]
  rfl

/-- C2 (amended): the sweep emits at most one transfer fewer than the number
of entries of the balance map, provided every unsettled expense of the group
has a nonempty participant list (the model invariant of the spec). -/
theorem settle_transfer_count (s : Store) (gid : String)
    (hpart : ∀ e ∈ getExpenses s gid, e.settled = false → e.participants ≠ []) :
    (getSimplifiedBalances s gid).length ≤ (calculateBalances s gid).length - 1 := by
  unfold getSimplifiedBalances
  set BA := (calculateBalances s gid).map (fun p => BalEntry.mk p.1 p.2) with hBA
  set A := sortByBalance BA with hAdef
  have hperm : A.Perm BA := by rw [hAdef]; exact List.perm_insertionSort _ _
  have hlenA : A.length = (calculateBalances s gid).length := by
    rw [hperm.length_eq, hBA, List.length_map]
  rcases Nat.eq_zero_or_pos A.length with hn | hn
  · rw [settleLoop_stop _ _ _ _ (by omega)]
    simp
  · have horig_sorted : (A.map (fun e => e.balance)).Pairwise (· ≤ ·) := by
      apply List.pairwise_map.mpr
      have hs := List.sorted_insertionSort (fun a b => a.balance ≤ b.balance) BA
      rw [hAdef]
      exact hs
    have hsum0 : (A.map (fun e => e.balance)).sum = 0 := by
      have h1 : (A.map (fun e => e.balance)).sum = (BA.map (fun e => e.balance)).sum :=
        (hperm.map _).sum_eq
      have h2 : (BA.map (fun e => e.balance)).sum = mapSum (calculateBalances s gid) := by
        rw [hBA, List.map_map]
        rfl
      rw [h1, h2, calculateBalances_mapSum s gid hpart]
    have hmain := settleLoop_length_le (A.map (fun e => e.balance)) (settleFuel A) A 0
      (A.length - 1) (by simp) horig_sorted (by omega)
      (fun k hk1 hk2 => (getD_map_balance A k (by omega)).symm)
      (fun hi => by
        rw [getD_map_balance A 0 (by omega)]
        exact ⟨le_refl _, fun h => h⟩)
    have hws : winSum A 0 (A.length - 1) = 0 := by
      rw [winSum_total A (by omega), hsum0]
    have hpot : potT A 0 (A.length - 1) = 0 := by
      unfold potT
      rw [hws, zero_div, Int.ceil_zero]
      rfl
    rw [hpot] at hmain
    omega

theorem settle_transfer_count_witness :
    (∀ e ∈ getExpenses scenarioStore "g1", e.settled = false → e.participants ≠ []) ∧
    (getSimplifiedBalances scenarioStore "g1").length ≤
      (calculateBalances scenarioStore "g1").length - 1 :=
  ⟨by decide, settle_transfer_count scenarioStore "g1" (by decide)⟩

/-- The per-expense adjustment spelled out: `paidBy` is reassigned to the
first new participant exactly when it left the group, the participant list is
filtered to the survivors, and an emptied list is replaced by the whole new
list. -/
theorem adjustExpense_eq (newP : List String) (e : Expense) :
    (adjustExpense newP e).1 =
      { e with
        paidBy := if newP.contains e.paidBy then e.paidBy else newP.headD "",
        participants :=
          if e.participants.filter (fun p => newP.contains p) = [] then newP
          else e.participants.filter (fun p => newP.contains p) } := by
  have hsub : (e.participants.filter (fun p => newP.contains p)).Sublist e.participants :=
    List.filter_sublist e.participants
  simp only [adjustExpense]
  by_cases h1 : newP.contains e.paidBy = true
  · rw [if_pos h1]
    dsimp only
    by_cases h2 : (e.participants.filter fun p => newP.contains p).length = 0
    · have hfe : e.participants.filter (fun p => newP.contains p) = [] :=
        List.length_eq_zero.mp h2
      rw [if_pos h2, if_pos hfe, if_pos h1]
    · have hfe : ¬ e.participants.filter (fun p => newP.contains p) = [] := by
        intro h
        exact h2 (by rw [h]; rfl)
      rw [if_neg h2, if_neg hfe]
      by_cases h3 : (e.participants.filter fun p => newP.contains p).length =
          e.participants.length
      · have heq : e.participants.filter (fun p => newP.contains p) = e.participants :=
          List.Sublist.eq_of_length hsub h3
        rw [if_neg (not_not_intro h3), heq, if_pos h1]
      · rw [if_pos h3, if_pos h1]
  · rw [if_neg h1]
    dsimp only
    by_cases h2 : (e.participants.filter fun p => newP.contains p).length = 0
    · have hfe : e.participants.filter (fun p => newP.contains p) = [] :=
        List.length_eq_zero.mp h2
      rw [if_pos h2, if_pos hfe, if_neg h1]
    · have hfe : ¬ e.participants.filter (fun p => newP.contains p) = [] := by
        intro h
        exact h2 (by rw [h]; rfl)
      rw [if_neg h2, if_neg hfe]
      by_cases h3 : (e.participants.filter fun p => newP.contains p).length =
          e.participants.length
      · have heq : e.participants.filter (fun p => newP.contains p) = e.participants :=
          List.Sublist.eq_of_length hsub h3
        rw [if_neg (not_not_intro h3), heq, if_neg h1]
      · rw [if_pos h3, if_neg h1]

theorem adjust_fst_id (newP : List String) (e : Expense) :
    (adjustExpense newP e).1.id = e.id := by
  rw [adjustExpense_eq]

theorem adjust_snd_false (newP : List String) (e : Expense)
    (h : (adjustExpense newP e).2 = false) : (adjustExpense newP e).1 = e := by
  simp only [adjustExpense] at h ⊢
  by_cases h1 : newP.contains e.paidBy = true
  · rw [if_pos h1] at h ⊢
    dsimp only at h ⊢
    by_cases h2 : (e.participants.filter fun p => newP.contains p).length = 0
    · rw [if_pos h2] at h
      exact absurd h (by simp)
    · rw [if_neg h2] at h ⊢
      by_cases h3 : (e.participants.filter fun p => newP.contains p).length =
          e.participants.length
      · rw [if_neg (not_not_intro h3)]
      · rw [if_pos h3] at h
        exact absurd h (by simp)
  · rw [if_neg h1] at h
    dsimp only at h
    by_cases h2 : (e.participants.filter fun p => newP.contains p).length = 0
    · rw [if_pos h2] at h
      exact absurd h (by simp)
    · rw [if_neg h2] at h
      by_cases h3 : (e.participants.filter fun p => newP.contains p).length =
          e.participants.length
      · rw [if_neg (not_not_intro h3)] at h
        exact absurd h (by simp)
      · rw [if_pos h3] at h
        exact absurd h (by simp)

/-- Locating an expense of a known id and overwriting it in place is a
pointwise map over the collection, when the stored ids are distinct. -/
theorem findIdx_set_map :
    ∀ (l : List Expense) (k : String) (v : Expense),
      (l.map (fun x => x.id)).Nodup → (∃ e ∈ l, e.id = k) →
      ∃ idx, l.findIdx? (fun x => x.id == k) = some idx ∧
        l.set idx v = l.map (fun x => if x.id = k then v else x) := by
  intro l
  induction l with
  | nil =>
    intro k v _ hmem
    rcases hmem with ⟨e, he, _⟩
    exact absurd he (List.not_mem_nil e)
  | cons a t ih =>
    intro k v hnd hmem
    have hconsE : (a.id :: t.map (fun x => x.id)).Nodup := hnd
    have hcons := List.nodup_cons.mp hconsE
    by_cases hak : a.id = k
    · refine ⟨0, ?_, ?_⟩
      · rw [List.findIdx?_cons]
        simp [hak]
      · rw [List.set_cons_zero, List.map_cons, if_pos hak]
        have htmap : t.map (fun x => if x.id = k then v else x) = t.map id := by
          apply List.map_congr_left
          intro x hx
          rw [id_eq, if_neg]
          intro hxk
          have hmm : x.id ∈ t.map (fun y => y.id) := List.mem_map_of_mem _ hx
          rw [hxk, ← hak] at hmm
          exact hcons.1 hmm
        rw [htmap, List.map_id]
    · rcases hmem with ⟨e, he, hek⟩
      have het : e ∈ t := by
        rcases List.mem_cons.mp he with h | h
        · exact absurd (h ▸ hek) hak
        · exact h
      rcases ih k v hcons.2 ⟨e, het, hek⟩ with ⟨idx, hfind, hset⟩
      refine ⟨idx + 1, ?_, ?_⟩
      · rw [List.findIdx?_cons, if_neg (by simp [hak]), List.findIdx?_succ, hfind]
        rfl
      · rw [List.set_cons_succ, List.map_cons, if_neg hak, hset]

/-- `saveExpense` on a stored id (distinct ids) overwrites in place. -/
theorem saveExpense_update (u freshId : String) (now : Nat) (v : Expense) (s : Store)
    (hnd : (s.expenses.map (fun x => x.id)).Nodup)
    (hmem : ∃ e ∈ s.expenses, e.id = v.id) (hvid : v.id ≠ "") :
    saveExpense (some u) freshId now v s =
      .ok ({ s with expenses :=
        s.expenses.map (fun x => if x.id = v.id then v else x) }, v) := by
  rcases findIdx_set_map s.expenses v.id v hnd hmem with ⟨idx, hfind, hset⟩
  simp only [saveExpense]
  rw [if_pos hvid, hfind]
  show Except.ok ({ s with expenses := s.expenses.set idx v }, v) = _
  rw [hset]

/-- `saveGroup` with an identity always succeeds and never touches the
expense collection or the active pointer. -/
theorem saveGroup_ok (u freshId : String) (now : Nat) (g : Group) (s : Store) :
    ∃ r : Store × Group, saveGroup (some u) freshId now g s = .ok r ∧
      r.1.expenses = s.expenses ∧ r.1.currentGroup = s.currentGroup := by
  simp only [saveGroup]
  by_cases hid : g.id ≠ ""
  · rw [if_pos hid]
    cases hfind : s.groups.findIdx? (fun gg => gg.id == g.id) with
    | none => exact ⟨(s, g), rfl, rfl, rfl⟩
    | some idx => exact ⟨({ s with groups := s.groups.set idx g }, g), rfl, rfl, rfl⟩
  · rw [if_neg hid]
    exact ⟨_, rfl, rfl, rfl⟩

/-- The expense-rewriting loop, characterised as a pointwise map: every
stored expense whose id is in the processed snapshot is replaced by its
adjustment, everything else is untouched. -/
theorem foldlM_adjust_map (u freshId : String) (now : Nat) (newP : List String) :
    ∀ (todo : List Expense) (s : Store),
      (s.expenses.map (fun x => x.id)).Nodup →
      (todo.map (fun x => x.id)).Nodup →
      (∀ e ∈ todo, e.id ≠ "") →
      (∀ e ∈ todo, e ∈ s.expenses) →
      ∃ s2,
        todo.foldlM
          (fun st e =>
            if (adjustExpense newP e).2 then
              (saveExpense (some u) freshId now (adjustExpense newP e).1 st).map Prod.fst
            else .ok st) s = .ok s2 ∧
        s2.expenses = s.expenses.map
          (fun x => if x.id ∈ todo.map (fun y => y.id) then (adjustExpense newP x).1 else x) ∧
        s2.groups = s.groups ∧ s2.currentGroup = s.currentGroup := by
  intro todo
  induction todo with
  | nil =>
    intro s hnds _ _ _
    refine ⟨s, rfl, ?_, rfl, rfl⟩
    have h1 : s.expenses.map (fun x =>
        if x.id ∈ ([] : List Expense).map (fun y => y.id) then (adjustExpense newP x).1
        else x) = s.expenses.map id :=
      List.map_congr_left (fun x _ => by simp)
    rw [h1, List.map_id]
  | cons e todo2 ih =>
    intro s hnds hndt hne hmem
    have hconsE : (e.id :: todo2.map (fun x => x.id)).Nodup := hndt
    have hcons := List.nodup_cons.mp hconsE
    have hes : e ∈ s.expenses := hmem e (by simp)
    rw [List.foldlM_cons]
    by_cases hflag : (adjustExpense newP e).2 = true
    · have hvid : (adjustExpense newP e).1.id ≠ "" := by
        rw [adjust_fst_id]
        exact hne e (by simp)
      have hsave := saveExpense_update u freshId now (adjustExpense newP e).1 s hnds
        ⟨e, hes, (adjust_fst_id newP e).symm⟩ hvid
      have hids2 : ((s.expenses.map (fun x =>
            if x.id = (adjustExpense newP e).1.id then (adjustExpense newP e).1
            else x)).map (fun x => x.id)) = s.expenses.map (fun x => x.id) := by
        rw [List.map_map]
        apply List.map_congr_left
        intro x _
        by_cases hx : x.id = (adjustExpense newP e).1.id
        · simp only [Function.comp_def]
          rw [if_pos hx, ← hx]
        · simp only [Function.comp_def]
          rw [if_neg hx]
      have hmem2 : ∀ e2 ∈ todo2, e2 ∈ s.expenses.map (fun x =>
          if x.id = (adjustExpense newP e).1.id then (adjustExpense newP e).1 else x) := by
        intro e2 he2
        have he2s : e2 ∈ s.expenses := hmem e2 (by simp [he2])
        have hne2 : ¬ e2.id = (adjustExpense newP e).1.id := by
          rw [adjust_fst_id]
          intro hEq
          exact hcons.1 (hEq ▸ List.mem_map_of_mem (fun y => y.id) he2)
        have himg : (if e2.id = (adjustExpense newP e).1.id then (adjustExpense newP e).1
            else e2) ∈ s.expenses.map (fun x =>
              if x.id = (adjustExpense newP e).1.id then (adjustExpense newP e).1 else x) :=
          List.mem_map_of_mem _ he2s
        rw [if_neg hne2] at himg
        exact himg
      obtain ⟨s2, hfold, hexp, hgr, hcg⟩ := ih
        { s with
            expenses := s.expenses.map (fun x =>
              if x.id = (adjustExpense newP e).1.id then (adjustExpense newP e).1
              else x) }
        (show ((s.expenses.map (fun x =>
            if x.id = (adjustExpense newP e).1.id then (adjustExpense newP e).1
            else x)).map (fun x => x.id)).Nodup from by rw [hids2]; exact hnds)
        hcons.2
        (fun e2 he2 => hne e2 (by simp [he2]))
        hmem2
      refine ⟨s2, ?_, ?_, hgr, hcg⟩
      · rw [if_pos hflag, hsave]
        exact hfold
      · rw [hexp]
        show (s.expenses.map (fun x =>
            if x.id = (adjustExpense newP e).1.id then (adjustExpense newP e).1
            else x)).map (fun x =>
              if x.id ∈ todo2.map (fun y => y.id) then (adjustExpense newP x).1 else x) = _
        rw [List.map_map]
        apply List.map_congr_left
        intro x hx
        simp only [Function.comp_def]
        by_cases hxe : x.id = e.id
        · have hxeq : x = e := List.inj_on_of_nodup_map hnds hx hes hxe
          have hv : x.id = (adjustExpense newP e).1.id := by
            rw [adjust_fst_id]
            exact hxe
          have hnotin : ¬ (adjustExpense newP e).1.id ∈ todo2.map (fun y => y.id) := by
            rw [adjust_fst_id]
            exact hcons.1
          rw [if_pos hv, if_neg hnotin,
            if_pos (show x.id ∈ (e :: todo2).map (fun y => y.id) from by simp [hxe]), hxeq]
        · have hv : ¬ x.id = (adjustExpense newP e).1.id := by
            rw [adjust_fst_id]
            exact hxe
          rw [if_neg hv]
          have hiff : (x.id ∈ todo2.map (fun y => y.id)) ↔
              (x.id ∈ (e :: todo2).map (fun y => y.id)) := by
            simp [hxe]
          by_cases hin : x.id ∈ todo2.map (fun y => y.id)
          · rw [if_pos hin, if_pos (hiff.mp hin)]
          · rw [if_neg hin, if_neg (fun hin2 => hin (hiff.mpr hin2))]
    · have hflagF : (adjustExpense newP e).2 = false := by
        rcases Bool.eq_false_or_eq_true ((adjustExpense newP e).2) with h | h
        · exact absurd h hflag
        · exact h
      have heid : (adjustExpense newP e).1 = e := adjust_snd_false newP e hflagF
      rcases ih s hnds hcons.2 (fun e2 he2 => hne e2 (by simp [he2]))
        (fun e2 he2 => hmem e2 (by simp [he2])) with ⟨s2, hfold, hexp, hgr, hcg⟩
      refine ⟨s2, ?_, ?_, hgr, hcg⟩
      · rw [if_neg hflag]
        exact hfold
      · rw [hexp]
        apply List.map_congr_left
        intro x hx
        by_cases hxe : x.id = e.id
        · have hxeq : x = e := List.inj_on_of_nodup_map hnds hx hes hxe
          have hnotin : ¬ x.id ∈ todo2.map (fun y => y.id) := by
            rw [hxe]
            exact hcons.1
          rw [if_neg hnotin,
            if_pos (show x.id ∈ (e :: todo2).map (fun y => y.id) from by simp [hxe]),
            hxeq, heid]
        · have hiff : (x.id ∈ todo2.map (fun y => y.id)) ↔
              (x.id ∈ (e :: todo2).map (fun y => y.id)) := by
            simp [hxe]
          by_cases hin : x.id ∈ todo2.map (fun y => y.id)
          · rw [if_pos hin, if_pos (hiff.mp hin)]
          · rw [if_neg hin, if_neg (fun hin2 => hin (hiff.mpr hin2))]

/-- C10: updating a group whose participant list changed rewrites the group's
stored expenses pointwise — `paidBy` not among the new participants is
reassigned to the first new participant, the participant list is filtered to
the survivors, an emptied list is replaced by the whole new list — and every
other expense (and any expense no rule touches) is left unchanged.  Stored
ids are assumed distinct and nonempty, the persistent-store invariant. -/
theorem updateGroup_rewrites_expenses (u freshId : String) (now : Nat) (g old : Group)
    (s : Store)
    (hfound : getGroupById s g.id = some old)
    (hchanged : old.participants ≠ g.participants)
    (hnd : (s.expenses.map (fun x => x.id)).Nodup)
    (hne : ∀ e ∈ s.expenses, e.id ≠ "")
    (hnp : g.participants ≠ []) :
    ∃ s2, updateGroup (some u) freshId now g s = .ok s2 ∧
      s2.expenses = s.expenses.map (fun e =>
        if e.groupId = g.id then
          { e with
            paidBy := if g.participants.contains e.paidBy then e.paidBy
                      else g.participants.headD "",
            participants :=
              if e.participants.filter (fun p => g.participants.contains p) = []
              then g.participants
              else e.participants.filter (fun p => g.participants.contains p) }
        else e) := by
  obtain ⟨r, hsg, hrexp, hrcg⟩ := saveGroup_ok u freshId now g s
  have hrun : updateGroup (some u) freshId now g s =
      updateExpensesForGroupParticipants (some u) freshId now g.id old.participants
        g.participants r.1 := by
    unfold updateGroup
    rw [hfound, hsg]
    exact if_pos hchanged
  set todo := s.expenses.filter (fun e => e.groupId == g.id) with htodo
  have hsubid : (todo.map (fun x => x.id)).Sublist (s.expenses.map (fun x => x.id)) :=
    List.Sublist.map _ (List.filter_sublist s.expenses)
  obtain ⟨s2, hfold, hexp, _, _⟩ := foldlM_adjust_map u freshId now g.participants todo r.1
    (by rw [hrexp]; exact hnd)
    (List.Nodup.sublist hsubid hnd)
    (fun e he => hne e (List.mem_filter.mp he).1)
    (fun e he => by rw [hrexp]; exact (List.mem_filter.mp he).1)
  have hge : getExpenses r.1 g.id = todo := by
    unfold getExpenses
    rw [hrexp]
  have hrun2 : updateExpensesForGroupParticipants (some u) freshId now g.id
      old.participants g.participants r.1 = .ok s2 := by
    simp only [updateExpensesForGroupParticipants]
    rw [hge]
    exact hfold
  refine ⟨s2, by rw [hrun, hrun2], ?_⟩
  rw [hexp, hrexp]
  apply List.map_congr_left
  intro x hx
  by_cases hxg : x.groupId = g.id
  · have hmemid : x.id ∈ todo.map (fun y => y.id) :=
      List.mem_map_of_mem _ (List.mem_filter.mpr ⟨hx, by simp [hxg]⟩)
    rw [if_pos hmemid, if_pos hxg, adjustExpense_eq]
  · have hnotmem : ¬ x.id ∈ todo.map (fun y => y.id) := by
      intro hmm
      rcases List.mem_map.mp hmm with ⟨y, hy, hyx⟩
      rcases List.mem_filter.mp hy with ⟨hys, hyg⟩
      have hyxeq : y = x := List.inj_on_of_nodup_map hnd hys hx hyx
      rw [hyxeq] at hyg
      exact hxg (by simpa using hyg)
    rw [if_neg hnotmem, if_neg hxg]

theorem updateGroup_rewrites_expenses_witness :
    (getGroupById w10Store w10New.id = some scenarioGroup) ∧
    scenarioGroup.participants ≠ w10New.participants ∧
    (w10Store.expenses.map (fun x => x.id)).Nodup ∧
    (∀ e ∈ w10Store.expenses, e.id ≠ "") ∧
    w10New.participants ≠ [] ∧
    (∃ s2, updateGroup (some "u1") "f1" 7 w10New w10Store = .ok s2 ∧
      s2.expenses = w10Store.expenses.map (fun e =>
        if e.groupId = w10New.id then
          { e with
            paidBy := if w10New.participants.contains e.paidBy then e.paidBy
                      else w10New.participants.headD "",
            participants :=
              if e.participants.filter (fun p => w10New.participants.contains p) = []
              then w10New.participants
              else e.participants.filter (fun p => w10New.participants.contains p) }
        else e)) :=
  ⟨by decide, by decide, by decide, by decide, by decide,
    updateGroup_rewrites_expenses "u1" "f1" 7 w10New scenarioGroup w10Store
      (by decide) (by decide) (by decide) (by decide) (by decide)⟩

end GroupXpense
